import Mathlib

/-
  Verification of the quantum-granularity free-space tracking layer of
  darling-libauto: the Bitmap (bit vector) of Bitmap.h / Bitmap.cpp, its
  nested AtomicCursor, and the FreeList / FreeListNode of FreeList.h.

  The embedding is a shallow one over Nat.  A machine word (usword_t, 64
  bits on the platforms this code targets) is a Nat together with explicit
  truncation modulo 2^64 at the points where C arithmetic would wrap.  A
  Bitmap is the list of its backing words; memory holding free-list nodes
  is a function from byte addresses to stored words.

  Helper constants and functions that live in Definitions.h / Range.h /
  Configuration.h (files not part of this extract: bits_per_word, mask,
  all_ones, not_found, ilog2, count_trailing_zeros, the Range byte size,
  allocate_quantum_medium) are modelled from the spec, as noted on each.
  Everything else is translated directly from Bitmap.h, Bitmap.cpp and
  FreeList.h.
-/

namespace Auto

/-- Modelled from the spec: the machine word is 64 bits wide
("Word: the machine-native integer size", spec glossary). -/
def bits_per_word : Nat := 64

/-- Bytes per word.  `bytes_per_word_log2 = 3` in Definitions.h. -/
def bytes_per_word : Nat := 8

/-- Modelled from the spec: `all_ones` of Definitions.h, the word with every
bit set. -/
def all_ones : Nat := 2 ^ 64 - 1

/-- Modelled from the spec: the "not found" sentinel returned by the
directional searches, the all-ones word, identical to `(usword_t)-1`. -/
def not_found : Nat := 2 ^ 64 - 1

/-- Modelled from the spec: `mask(n)` of Definitions.h, a mask covering
exactly the low `n` bits (spec 4.2: "builds a mask covering exactly those
bits", for counts up to a full word). -/
def mask (n : Nat) : Nat := 2 ^ n - 1

/-- Truncation of a C arithmetic result to a 64-bit word. -/
def trunc (x : Nat) : Nat := x % 2 ^ 64

/-- C bitwise complement `~x` on a 64-bit word. -/
def compl64 (x : Nat) : Nat := all_ones ^^^ trunc x

/-- A Bitmap is its backing storage: the list of machine words
(Bitmap.h: "an array of unsigned long words"). -/
structure Bitmap where
  words : List Nat

/-- Well-formed backing storage: every stored word fits in 64 bits. -/
def Bitmap.WF (m : Bitmap) : Prop := ∀ w ∈ m.words, w < 2 ^ 64

instance (m : Bitmap) : Decidable m.WF := by
  unfold Bitmap.WF; infer_instance

namespace Bitmap

/-- Bitmap.h `index`: the word index of a bit position,
`bp >> bits_per_word_log2`. -/
def index (bp : Nat) : Nat := bp >>> 6

/-- Bitmap.h `shift`: the intra-word shift of a bit position,
`bp & bits_mask`. -/
def shift (bp : Nat) : Nat := bp &&& (bits_per_word - 1)

/-- Read the backing word at a word index (a `*cursor` read in the C code;
out-of-range reads do not occur under the claims' range hypotheses). -/
def word (m : Bitmap) (i : Nat) : Nat := m.words.getD i 0

/-- Write the backing word at a word index (a `*cursor = v` store). -/
def setWord (m : Bitmap) (i v : Nat) : Bitmap := ⟨m.words.set i v⟩

/-- Bitmap.h `size_in_bits`: `size() << bits_per_byte_log2`, with the Range
byte size modelled from the spec as `bytes_per_word * number of words`. -/
def size_in_bits (m : Bitmap) : Nat := bits_per_word * m.words.length

/-- Bitmap.h `bit`: `(*bp_cursor(bp) >> shift(bp)) & 1L`. -/
def bit (m : Bitmap) (bp : Nat) : Nat := (word m (index bp) >>> shift bp) &&& 1

/-- Bitmap.h `set_bit`: `*cursor |= (1L << shift(bp))`. -/
def set_bit (m : Bitmap) (bp : Nat) : Bitmap :=
  setWord m (index bp) (word m (index bp) ||| trunc (1 <<< shift bp))

/-- Bitmap.h `clear_bit`: `*cursor &= ~(1L << shift(bp))`. -/
def clear_bit (m : Bitmap) (bp : Nat) : Bitmap :=
  setWord m (index bp) (word m (index bp) &&& compl64 (1 <<< shift bp))

end Bitmap

end Auto

namespace Auto

/-- The loop `for ( ; spill >= bits_per_word; spill -= bits_per_word)
*cursor++ = all_ones;` of `set_bits_large`: it stores `all_ones` into `k`
consecutive words starting at word index `c`, where `k` is the number of
iterations `spill / 64`. -/
def Bitmap.writeOnesFrom (m : Bitmap) (c : Nat) : Nat → Bitmap
  | 0 => m
  | k + 1 => Bitmap.writeOnesFrom (m.setWord c all_ones) (c + 1) k

/-- Bitmap.cpp `set_bits_large`: first partial word `*cursor++ |=
(all_ones << sh)`, then `spill = sh + n - bits_per_word` full words of
`all_ones`, then the remaining `spill % 64` bits `*cursor |= (all_ones >>
(bits_per_word - spill))`.  Precondition from the header comment: the range
spans more than one word, i.e. `sh + n > 64`, so `spill ≥ 1`. -/
def Bitmap.set_bits_large (m : Bitmap) (bp n : Nat) : Bitmap :=
  let i := Bitmap.index bp
  let sh := Bitmap.shift bp
  let m1 := m.setWord i (m.word i ||| trunc (all_ones <<< sh))
  let spill := sh + n - bits_per_word
  let m2 := m1.writeOnesFrom (i + 1) (spill / 64)
  if spill % 64 > 0 then
    m2.setWord (i + 1 + spill / 64)
      (m2.word (i + 1 + spill / 64) ||| (all_ones >>> (bits_per_word - spill % 64)))
  else m2

/-- Bitmap.h `set_bits`: single-word fast path `*bp_cursor(bp) |= (mask n
<< sh)` when `sh + n ≤ bits_per_word`, otherwise `set_bits_large`. -/
def Bitmap.set_bits (m : Bitmap) (bp n : Nat) : Bitmap :=
  let sh := Bitmap.shift bp
  if sh + n > bits_per_word then m.set_bits_large bp n
  else m.setWord (Bitmap.index bp) (m.word (Bitmap.index bp) ||| (mask n <<< sh))

/-- The loop `for ( ; spill >= bits_per_word; spill -= bits_per_word)
*cursor++ = all_zeros;` of `clear_bits_large`. -/
def Bitmap.writeZerosFrom (m : Bitmap) (c : Nat) : Nat → Bitmap
  | 0 => m
  | k + 1 => Bitmap.writeZerosFrom (m.setWord c 0) (c + 1) k

/-- Bitmap.cpp `clear_bits_large`: first partial word `*cursor++ &=
~(all_ones << sh)`, then `spill / 64` full words of `all_zeros`, then the
remainder `*cursor &= ~(all_ones >> (bits_per_word - spill))`. -/
def Bitmap.clear_bits_large (m : Bitmap) (bp n : Nat) : Bitmap :=
  let i := Bitmap.index bp
  let sh := Bitmap.shift bp
  let m1 := m.setWord i (m.word i &&& compl64 (all_ones <<< sh))
  let spill := sh + n - bits_per_word
  let m2 := m1.writeZerosFrom (i + 1) (spill / 64)
  if spill % 64 > 0 then
    m2.setWord (i + 1 + spill / 64)
      (m2.word (i + 1 + spill / 64) &&& compl64 (all_ones >>> (bits_per_word - spill % 64)))
  else m2

/-- Bitmap.h `clear_bits`: single-word fast path `*bp_cursor(bp) &= ~(mask
n << sh)` when `sh + n ≤ bits_per_word`, otherwise `clear_bits_large`. -/
def Bitmap.clear_bits (m : Bitmap) (bp n : Nat) : Bitmap :=
  let sh := Bitmap.shift bp
  if sh + n > bits_per_word then m.clear_bits_large bp n
  else m.setWord (Bitmap.index bp) (m.word (Bitmap.index bp) &&& compl64 (mask n <<< sh))

end Auto

namespace Auto

/-- Naive reference count: the number of in-range positions whose bit
reads 1 (spec 8: "a naive linear scan"). -/
def Bitmap.naiveCount (m : Bitmap) : Nat :=
  ((List.range m.size_in_bits).filter (fun i => m.bit i == 1)).length

/-- The 32-bit unit `bits[j]` read by `count_set` after its cast `unsigned
*bits = (unsigned *)address()`, on a little-endian machine: unit `j` is
the low (j even) or high (j odd) half of word `j / 2`. -/
def Bitmap.unit32 (m : Bitmap) (j : Nat) : Nat :=
  (m.word (j / 2) >>> (32 * (j % 2))) &&& (2 ^ 32 - 1)

/-- The per-unit SWAR steps of `count_set`'s inner loop body (Bitmap.cpp):
`x = x - ((x >> 1) & fives); x = (x & threes) + ((x >> 2) & threes);
x = (x + (x >> 4)) & nibbles`. -/
def pop32 (x : Nat) : Nat :=
  let x1 := x - ((x >>> 1) &&& 0x55555555)
  let x2 := (x1 &&& 0x33333333) + ((x1 >>> 2) &&& 0x33333333)
  (x2 + (x2 >>> 4)) &&& 0x0f0f0f0f

/-- The inner loop of `count_set`: `for (j = i; j < lim; j++) sum8 += x;`
expressed as a fold over the unit indices `i, i+1, ..., lim-1`. -/
def Bitmap.sum8Block (m : Bitmap) (i lim : Nat) : Nat :=
  ((List.range (lim - i)).map (fun t => pop32 (m.unit32 (i + t)))).foldl (· + ·) 0

/-- Bitmap.cpp `count_set`.  Note the unit count: the source computes
`size = this->size() >> sizeof(unsigned)`, i.e. the byte size shifted
right by 4 (divided by 16), not divided by `sizeof(unsigned) = 4`.  The
outer loop `for (i = 0; i < size; i += 31)` runs once per block of 31
units; block `b` starts at unit `i = 31 * b`. -/
def Bitmap.count_set (m : Bitmap) : Nat :=
  let size := (bytes_per_word * m.words.length) >>> 4
  ((List.range ((size + 30) / 31)).map (fun b =>
    let i := 31 * b
    let lim := min size (i + 31)
    let sum8 := m.sum8Block i lim
    let y := (sum8 &&& 0x00ff00ff) + ((sum8 >>> 8) &&& 0x00ff00ff)
    (y &&& 0x0000ffff) + (y >>> 16))).foldl (· + ·) 0

end Auto

namespace Auto

/-- Modelled from the spec: `count_trailing_zeros` of Definitions.h, "the
lowest set bit (count of trailing zeros)" (spec 4.3 via 4.1): the least
bit index at which `w` has a 1, scanning the 64 bit positions of a word;
64 when `w` has no set bit among them. -/
def ctzAux (w : Nat) : Nat → Nat → Nat
  | 0, i => i
  | fuel + 1, i => if w.testBit i then i else ctzAux w fuel (i + 1)

/-- Count of trailing zeros of a word (see `ctzAux`). -/
def count_trailing_zeros (w : Nat) : Nat := ctzAux w 64 0

/-- Modelled from the spec: `ilog2` of Definitions.h, "within the found
nonzero word, the answer is its highest set bit" (spec 4.1): the greatest
bit index below 64 at which `w` has a 1 (0 when there is none). -/
def ilog2Aux (w : Nat) : Nat → Nat
  | 0 => 0
  | i + 1 => if w.testBit (i + 1) then i + 1 else ilog2Aux w i

/-- Highest set bit of a word (see `ilog2Aux`). -/
def ilog2 (w : Nat) : Nat := ilog2Aux w 63

/-- Bitmap.h `skip_all_zeros`, as the plain scan it computes (the
four-word batched prefetch loop of the source is an unrolling of the same
scan; spec 9 "reproduce as a plain loop"): the first word index in
`[c, c + fuel)` holding a nonzero word.  Called with `fuel = e - c`, it
returns `e` when every word in `[c, e)` is zero, exactly like the C
function's cursor result. -/
def Bitmap.skipZeroWords (m : Bitmap) (c : Nat) : Nat → Nat
  | 0 => c
  | fuel + 1 => if m.word c ≠ 0 then c else m.skipZeroWords (c + 1) fuel

/-- Bitmap.h `skip_all_zeros` on word indices `[c, e)`. -/
def Bitmap.skip_all_zeros (m : Bitmap) (c e : Nat) : Nat :=
  m.skipZeroWords c (e - c)

/-- Bitmap.h `skip_backward_all_zeros`, as the plain backward scan it
computes: scanning word indices `c - 1, c - 2, ..., 0`, the first (i.e.
greatest) index holding a nonzero word; `none` models the cursor running
below `first`. -/
def Bitmap.skipBackZeroWords (m : Bitmap) : Nat → Option Nat
  | 0 => none
  | c + 1 => if m.word c ≠ 0 then some c else m.skipBackZeroWords c

/-- Bitmap.cpp `next_set`: the bit position of the 1 at or after `bp`.
`cursor = bp_cursor(bp)`, `end = end_cursor()`; returns `not_found` when
the cursor is at or past the end; masks off the bits before `bp` in the
first word; skips all-zero words; returns `cursor_bp(cursor) +
count_trailing_zeros(word)` or `not_found`. -/
def Bitmap.next_set (m : Bitmap) (bp : Nat) : Nat :=
  let cursor := Bitmap.index bp
  let e := m.words.length
  if cursor ≥ e then not_found
  else
    let w0 := m.word cursor
    let w1 := if Bitmap.shift bp ≠ 0 then w0 &&& compl64 (mask (Bitmap.shift bp)) else w0
    if w1 = 0 then
      let c := m.skip_all_zeros (cursor + 1) e
      let w2 := if c < e then m.word c else all_ones
      if c < e then bits_per_word * c + count_trailing_zeros w2 else not_found
    else bits_per_word * cursor + count_trailing_zeros w1

/-- Bitmap.cpp `previous_set`: `word = 0`, then `if (sh) word = *cursor &
mask(sh)` — note `mask(sh)` keeps only the bits strictly below `bp` in its
word; if the result is zero, skip backward from `cursor - 1`; return
`cursor_bp(cursor) + ilog2(word)`, or `not_found` when the backward skip
runs below the first word. -/
def Bitmap.previous_set (m : Bitmap) (bp : Nat) : Nat :=
  let cursor := Bitmap.index bp
  let sh := Bitmap.shift bp
  let w := if sh ≠ 0 then m.word cursor &&& mask sh else 0
  if w = 0 then
    match m.skipBackZeroWords cursor with
    | some c => bits_per_word * c + ilog2 (m.word c)
    | none => not_found
  else bits_per_word * cursor + ilog2 w

/-- Naive forward reference scan: the first position `p ≥ bp` (scanning
`fuel` positions) with `bit p = 1`, else `not_found` (spec 8: "a linear
reference scan"). -/
def Bitmap.findBitFrom (m : Bitmap) (p : Nat) : Nat → Nat
  | 0 => not_found
  | fuel + 1 => if m.bit p = 1 then p else m.findBitFrom (p + 1) fuel

/-- Naive forward reference scan over the whole remaining range. -/
def Bitmap.naiveNext (m : Bitmap) (bp : Nat) : Nat :=
  m.findBitFrom bp (m.size_in_bits - bp)

/-- Naive backward reference scan: the greatest position strictly below
`bp` with `bit p = 1`, else `not_found`. -/
def Bitmap.findBitBelow (m : Bitmap) : Nat → Nat
  | 0 => not_found
  | p + 1 => if m.bit p = 1 then p else m.findBitBelow p

/-- Bitmap.h `test_set_bit_atomic`, sequentially (no interleaving): `bit =
1L << shift(bp)`; plain read `old = *cursor`; if the bit is clear, the
CAS loop of `atomic_or_return_orig` installs `old | bit` and returns the
original word; the call returns `(old & bit) != 0`. -/
def Bitmap.test_set_bit_atomic (m : Bitmap) (bp : Nat) : Bitmap × Bool :=
  let b := trunc (1 <<< Bitmap.shift bp)
  let c := Bitmap.index bp
  let w := m.word c
  if w &&& b = 0 then (m.setWord c (w ||| b), decide ((w &&& b) ≠ 0))
  else (m, decide ((w &&& b) ≠ 0))

/-- Bitmap.h `test_clear_bit_atomic`, sequentially: if the bit is set, the
CAS loop of `atomic_and_return_orig` installs `old & ~bit` and returns the
original word; the call returns `(old & bit) != 0`. -/
def Bitmap.test_clear_bit_atomic (m : Bitmap) (bp : Nat) : Bitmap × Bool :=
  let b := trunc (1 <<< Bitmap.shift bp)
  let c := Bitmap.index bp
  let w := m.word c
  if w &&& b ≠ 0 then (m.setWord c (w &&& compl64 b), decide ((w &&& b) ≠ 0))
  else (m, decide ((w &&& b) ≠ 0))

end Auto

namespace Auto

theorem and_mask_eq_mod (x n : Nat) : x &&& (2 ^ n - 1) = x % 2 ^ n := by
  apply Nat.eq_of_testBit_eq
  intro i
  simp [Nat.testBit_and, Nat.testBit_two_pow_sub_one, Nat.testBit_mod_two_pow,
    Bool.and_comm]

theorem shift_eq_mod (bp : Nat) : Bitmap.shift bp = bp % 64 := by
  have h : Bitmap.shift bp = bp &&& (2 ^ 6 - 1) := rfl
  rw [h, and_mask_eq_mod]
  norm_num

theorem index_eq_div (bp : Nat) : Bitmap.index bp = bp / 64 := by
  have h : Bitmap.index bp = bp >>> 6 := rfl
  rw [h, Nat.shiftRight_eq_div_pow]

theorem shift_lt (bp : Nat) : Bitmap.shift bp < 64 := by
  rw [shift_eq_mod]; exact Nat.mod_lt _ (by omega)

theorem bit_eq_toNat (m : Bitmap) (p : Nat) :
    m.bit p = ((m.word (Bitmap.index p)).testBit (Bitmap.shift p)).toNat := by
  unfold Bitmap.bit
  rw [Nat.and_one_is_mod, Nat.testBit_to_div_mod, Nat.shiftRight_eq_div_pow]
  rcases Nat.mod_two_eq_zero_or_one (m.word (Bitmap.index p) / 2 ^ Bitmap.shift p) with h | h <;>
    simp [h]

theorem bit_eq_one_iff (m : Bitmap) (p : Nat) :
    m.bit p = 1 ↔ (m.word (p / 64)).testBit (p % 64) = true := by
  rw [bit_eq_toNat, index_eq_div, shift_eq_mod]
  cases h : (m.word (p / 64)).testBit (p % 64) <;> simp

theorem bit_eq_zero_iff (m : Bitmap) (p : Nat) :
    m.bit p = 0 ↔ (m.word (p / 64)).testBit (p % 64) = false := by
  rw [bit_eq_toNat, index_eq_div, shift_eq_mod]
  cases h : (m.word (p / 64)).testBit (p % 64) <;> simp

theorem bit_le_one (m : Bitmap) (p : Nat) : m.bit p ≤ 1 := by
  rw [bit_eq_toNat]; cases ((m.word (Bitmap.index p)).testBit (Bitmap.shift p)) <;> simp

theorem word_setWord (m : Bitmap) (i v j : Nat) :
    (m.setWord i v).word j =
      if i = j ∧ i < m.words.length then v else m.word j := by
  unfold Bitmap.setWord Bitmap.word
  rw [List.getD_eq_getElem?_getD, List.getD_eq_getElem?_getD, List.getElem?_set]
  by_cases h : i = j
  · subst h
    by_cases hl : i < m.words.length
    · simp [hl]
    · simp [hl, List.getElem?_eq_none (by omega : m.words.length ≤ i)]
  · simp [h]

theorem length_setWord (m : Bitmap) (i v : Nat) :
    (m.setWord i v).words.length = m.words.length := by
  unfold Bitmap.setWord; exact List.length_set m.words i v

theorem size_setWord (m : Bitmap) (i v : Nat) :
    (m.setWord i v).size_in_bits = m.size_in_bits := by
  unfold Bitmap.size_in_bits; rw [length_setWord]

theorem one_shiftLeft_lt (sh : Nat) (h : sh < 64) : 1 <<< sh < 2 ^ 64 := by
  rw [Nat.shiftLeft_eq_mul_pow, one_mul]
  exact Nat.pow_lt_pow_right (by omega) h

theorem trunc_one_shiftLeft (sh : Nat) (h : sh < 64) :
    trunc (1 <<< sh) = 2 ^ sh := by
  unfold trunc
  rw [Nat.mod_eq_of_lt (one_shiftLeft_lt sh h), Nat.shiftLeft_eq_mul_pow, one_mul]

theorem and_two_pow_eq_zero_iff (w sh : Nat) :
    w &&& 2 ^ sh = 0 ↔ w.testBit sh = false := by
  rw [Nat.and_two_pow]
  cases h : w.testBit sh <;> simp [h, Nat.pos_iff_ne_zero, Nat.pow_pos]

end Auto

namespace Auto

theorem testBit_compl64 (x j : Nat) (h : j < 64) :
    (compl64 x).testBit j = !((x % 2 ^ 64).testBit j) := by
  unfold compl64 all_ones trunc
  rw [Nat.testBit_xor, Nat.testBit_two_pow_sub_one]
  simp [h]

theorem testBit_trunc (x j : Nat) (h : j < 64) :
    (trunc x).testBit j = x.testBit j := by
  unfold trunc
  rw [Nat.testBit_mod_two_pow]
  simp [h]

/-- C1: the claim says `count_set()` equals the number of set positions,
and that it returns 70 on a 128-bit vector after `set_bits(5,70)`.  The
code computes its 32-bit-unit count as `size() >> sizeof(unsigned)`
(bytes divided by 16, not by 4), so on this two-word vector it scans only
the first 32 bits and returns 27, while a naive scan over all 128
positions finds 70 set bits (positions 5 through 74). -/
theorem count_set_scans_first_quarter_only :
    (Bitmap.set_bits ⟨[0, 0]⟩ 5 70).count_set = 27 ∧
    (Bitmap.set_bits ⟨[0, 0]⟩ 5 70).naiveCount = 70 ∧
    (Bitmap.set_bits ⟨[0, 0]⟩ 5 70).bit 4 = 0 ∧
    (Bitmap.set_bits ⟨[0, 0]⟩ 5 70).bit 5 = 1 ∧
    (Bitmap.set_bits ⟨[0, 0]⟩ 5 70).bit 74 = 1 ∧
    (Bitmap.set_bits ⟨[0, 0]⟩ 5 70).bit 75 = 0 := by
  decide

/-- C2 counterexample: on a one-word bitmap whose only set bit is 5,
`previous_set(5)` returns the `not_found` sentinel even though position 5
itself is set — the largest set position `≤ 5` is 5, so the claim that
`previous_set(bp)` returns the largest position `≤ bp` whose bit is 1 is
false: the code masks with `mask(sh)`, excluding bit `bp` itself. -/
theorem previous_set_excludes_bp :
    Bitmap.previous_set ⟨[32]⟩ 5 = not_found ∧
    Bitmap.bit ⟨[32]⟩ 5 = 1 ∧ not_found ≠ 5 := by
  decide

/-- C3 counterexample: on a one-word bitmap with bit 3 initially set,
`test_set_bit_atomic(3)` (a no-op, bit already 1) followed by
`test_clear_bit_atomic(3)` leaves bit 3 equal to 0, not its original
value 1 — the round trip does not restore an initially set bit. -/
theorem test_set_clear_not_roundtrip_on_set_bit :
    Bitmap.bit ⟨[8]⟩ 3 = 1 ∧
    (((Bitmap.test_set_bit_atomic ⟨[8]⟩ 3).1.test_clear_bit_atomic 3).1.bit 3) = 0 := by
  decide

/-- C3 as amended: for every in-range bit, `test_set_bit_atomic(bp)` then
`test_clear_bit_atomic(bp)` leaves the bit 0 (so it restores the original
value exactly when that value was 0), and each call's boolean return
reports the bit's state immediately before that call's own transition:
the set call returns true iff the bit was already 1, and the clear call
returns true iff the bit was 1 before the clear (after the set, always). -/
theorem test_set_then_clear_spec (m : Bitmap) (bp : Nat)
    (h : bp < m.size_in_bits) :
    (m.test_set_bit_atomic bp).2 = (m.bit bp == 1) ∧
    (m.test_set_bit_atomic bp).1.bit bp = 1 ∧
    ((m.test_set_bit_atomic bp).1.test_clear_bit_atomic bp).2
      = ((m.test_set_bit_atomic bp).1.bit bp == 1) ∧
    ((m.test_set_bit_atomic bp).1.test_clear_bit_atomic bp).2 = true ∧
    ((m.test_set_bit_atomic bp).1.test_clear_bit_atomic bp).1.bit bp = 0 ∧
    (m.bit bp = 0 →
      ((m.test_set_bit_atomic bp).1.test_clear_bit_atomic bp).1.bit bp = m.bit bp) := by
  have hsh := shift_lt bp
  have hib : Bitmap.index bp < m.words.length := by
    rw [index_eq_div]
    unfold Bitmap.size_in_bits bits_per_word at h
    omega
  have hb : trunc (1 <<< Bitmap.shift bp) = 2 ^ Bitmap.shift bp :=
    trunc_one_shiftLeft _ hsh
  have key1 : (m.test_set_bit_atomic bp).2 = (m.bit bp == 1) := by
    unfold Bitmap.test_set_bit_atomic
    rw [hb, bit_eq_toNat]
    by_cases hw : (m.word (Bitmap.index bp)).testBit (Bitmap.shift bp) <;>
      simp [hw, and_two_pow_eq_zero_iff, Nat.and_two_pow]
  have key2 : (m.test_set_bit_atomic bp).1.bit bp = 1 := by
    unfold Bitmap.test_set_bit_atomic
    rw [hb]
    by_cases hw : (m.word (Bitmap.index bp)).testBit (Bitmap.shift bp)
    · have hne : m.word (Bitmap.index bp) &&& 2 ^ Bitmap.shift bp ≠ 0 := by
        rw [Ne, and_two_pow_eq_zero_iff]; simp [hw]
      rw [if_neg hne, bit_eq_toNat]
      simp [hw]
    · have : m.word (Bitmap.index bp) &&& 2 ^ Bitmap.shift bp = 0 := by
        rw [and_two_pow_eq_zero_iff]; simp [hw]
      simp only [this, if_pos]
      rw [bit_eq_toNat, word_setWord]
      simp [hib, Nat.testBit_or]
  -- after the set the bit is 1, so the clear call takes its transition path
  have hm1 : ((m.test_set_bit_atomic bp).1.word (Bitmap.index bp)).testBit
      (Bitmap.shift bp) = true := by
    have := key2
    rw [bit_eq_toNat] at this
    cases hx : ((m.test_set_bit_atomic bp).1.word (Bitmap.index bp)).testBit
        (Bitmap.shift bp)
    · rw [hx] at this; simp at this
    · rfl
  have key3 : ((m.test_set_bit_atomic bp).1.test_clear_bit_atomic bp).2 = true := by
    unfold Bitmap.test_clear_bit_atomic
    rw [hb]
    have : (m.test_set_bit_atomic bp).1.word (Bitmap.index bp) &&&
        2 ^ Bitmap.shift bp ≠ 0 := by
      rw [Ne, and_two_pow_eq_zero_iff]; simp [hm1]
    simp [this]
  have key4 : ((m.test_set_bit_atomic bp).1.test_clear_bit_atomic bp).1.bit bp = 0 := by
    unfold Bitmap.test_clear_bit_atomic
    rw [hb]
    have hne : (m.test_set_bit_atomic bp).1.word (Bitmap.index bp) &&&
        2 ^ Bitmap.shift bp ≠ 0 := by
      rw [Ne, and_two_pow_eq_zero_iff]; simp [hm1]
    simp only [hne, ne_eq, not_false_eq_true, if_pos]
    rw [bit_eq_toNat, word_setWord]
    have hib1 : Bitmap.index bp < (m.test_set_bit_atomic bp).1.words.length := by
      unfold Bitmap.test_set_bit_atomic
      by_cases hz : m.word (Bitmap.index bp) &&& trunc (1 <<< Bitmap.shift bp) = 0 <;>
        simp [hz, length_setWord, hib]
    simp only [hib1, and_self, if_pos, true_and]
    rw [Nat.testBit_and, testBit_compl64 _ _ hsh]
    rw [Nat.testBit_mod_two_pow]
    simp [hsh, Nat.testBit_two_pow_self]
  refine ⟨key1, key2, ?_, key3, key4, fun h0 => by rw [key4, h0]⟩
  rw [key3, key2]
  simp

/-- Witness for `test_set_then_clear_spec` at the one-word bitmap `[2]`
(bit 1 set) and position 3 (initially clear). -/
theorem test_set_then_clear_spec_witness :
    (3 < (Bitmap.mk [2]).size_in_bits) ∧
    ((Bitmap.mk [2]).test_set_bit_atomic 3).2 = ((Bitmap.mk [2]).bit 3 == 1) ∧
    ((Bitmap.mk [2]).test_set_bit_atomic 3).1.bit 3 = 1 ∧
    (((Bitmap.mk [2]).test_set_bit_atomic 3).1.test_clear_bit_atomic 3).2
      = (((Bitmap.mk [2]).test_set_bit_atomic 3).1.bit 3 == 1) ∧
    (((Bitmap.mk [2]).test_set_bit_atomic 3).1.test_clear_bit_atomic 3).2 = true ∧
    (((Bitmap.mk [2]).test_set_bit_atomic 3).1.test_clear_bit_atomic 3).1.bit 3 = 0 ∧
    ((Bitmap.mk [2]).bit 3 = 0 →
      (((Bitmap.mk [2]).test_set_bit_atomic 3).1.test_clear_bit_atomic 3).1.bit 3
        = (Bitmap.mk [2]).bit 3) :=
  ⟨by decide, test_set_then_clear_spec ⟨[2]⟩ 3 (by decide)⟩

end Auto

namespace Auto

/-- Byte-addressed word memory: the word stored at a byte address.  Nodes
of the free list live inside the free blocks themselves (FreeList.h), so
their fields are reads and writes of this memory: for a node at address
`a`, `_prev` is the word at `a`, `_next` the word at `a + 8`, `_size` the
word at `a + 16`, and the redundant tail size the word at
`a + _size - 8`. -/
def Mem : Type := Nat → Nat

/-- A word store `*(usword_t *)x = v`. -/
def writeW (m : Mem) (a v : Nat) : Mem := fun x => if x = a then v else m x

/-- FreeList.h `flip`: `(uintptr_t(node) ^ all_ones)` — prev/next links
are stored bitwise complemented. -/
def flip (p : Nat) : Nat := p ^^^ all_ones

namespace FreeListNode

/-- FreeList.h `prev()`: `flip(_prev)`. -/
def prev (m : Mem) (a : Nat) : Nat := flip (m a)

/-- FreeList.h `next()`: `flip(_next)`. -/
def next (m : Mem) (a : Nat) : Nat := flip (m (a + 8))

/-- FreeList.h `set_prev`: `_prev = flip(prev)`. -/
def set_prev (m : Mem) (a p : Nat) : Mem := writeW m a (flip p)

/-- FreeList.h `set_next`: `_next = flip(next)`. -/
def set_next (m : Mem) (a p : Nat) : Mem := writeW m (a + 8) (flip p)

/-- FreeList.h `size()`: the head-stored `_size` field. -/
def size (m : Mem) (a : Nat) : Nat := m (a + 16)

/-- FreeList.h `set_size`: store the size field, then `*(usword_t
*)displace(this, _size - sizeof(usword_t)) = size` — the size is also
placed in the last word of the free block. -/
def set_size (m : Mem) (a s : Nat) : Mem :=
  writeW (writeW m (a + 16) s) (a + (s - 8)) s

/-- FreeList.h `size_again()`: `*(usword_t *)displace(this, _size -
sizeof(usword_t))`. -/
def size_again (m : Mem) (a : Nat) : Nat := m (a + (size m a - 8))

end FreeListNode

/-- Modelled from the spec: the medium-size threshold
(`allocate_quantum_medium` of Configuration.h, not in this extract) above
which the `_purged` flag is meaningful.  The linkage and size claims do
not depend on its value. -/
def allocate_quantum_medium : Nat := 1024

/-- A heap: the word memory plus the `_purged` byte flags, modelled as a
separate map since no claim reads them. -/
structure Heap where
  mem : Mem
  purged : Nat → Bool

/-- The in-place constructor `FreeListNode(prev, next, size)`:
`set_prev(prev); set_next(next); set_size(size); if (size >=
allocate_quantum_medium) _purged = false;`. -/
def mkFreeListNode (h : Heap) (a prevp nextp sz : Nat) : Heap :=
  let m1 := FreeListNode.set_prev h.mem a prevp
  let m2 := FreeListNode.set_next m1 a nextp
  let m3 := FreeListNode.set_size m2 a sz
  if sz ≥ allocate_quantum_medium then
    ⟨m3, fun x => if x = a then false else h.purged x⟩
  else ⟨m3, h.purged⟩

/-- FreeList.h `FreeList`: head and tail node addresses, `0` for NULL. -/
structure FreeList where
  headAddr : Nat
  tailAddr : Nat

namespace FreeList

/-- FreeList.h `pop`: take the head node; if a node exists, advance the
head to its next; clear the new head's prev, or clear the tail when the
list became empty. -/
def pop (fl : FreeList) (h : Heap) : Nat × FreeList × Heap :=
  let node := fl.headAddr
  if node ≠ 0 then
    let nh := FreeListNode.next h.mem node
    if nh ≠ 0 then
      (node, ⟨nh, fl.tailAddr⟩, ⟨FreeListNode.set_prev h.mem nh 0, h.purged⟩)
    else (node, ⟨nh, 0⟩, h)
  else (node, fl, h)

/-- The scan loop of FreeList.h `insert`: `while (nextNode != NULL) { if
(uintptr_t(address) < uintptr_t(nextNode)) break; prevNode = nextNode;
nextNode = nextNode->next(); }`, with explicit fuel standing for the loop
bound (any fuel at least the list length yields the loop's result). -/
def insertScan (m : Mem) (address : Nat) (prevNode nextNode : Nat) :
    Nat → Nat × Nat
  | 0 => (prevNode, nextNode)
  | fuel + 1 =>
    if nextNode = 0 then (prevNode, nextNode)
    else if address < nextNode then (prevNode, nextNode)
    else insertScan m address nextNode (FreeListNode.next m nextNode) fuel

/-- FreeList.h `insert`: address-ordered insertion.  After the scan, a
node is constructed in place at `address` linked between `prevNode` and
`nextNode`, the neighbours are relinked, and head/tail are updated when
the insertion point was at an end of the list. -/
def insert (fl : FreeList) (h : Heap) (address sz fuel : Nat) :
    FreeList × Heap :=
  let pn := insertScan h.mem address 0 fl.headAddr fuel
  let prevNode := pn.1
  let nextNode := pn.2
  let h2 := mkFreeListNode h address prevNode nextNode sz
  let h3 := if nextNode ≠ 0 then
      ⟨FreeListNode.set_prev h2.mem nextNode address, h2.purged⟩ else h2
  let h4 := if prevNode ≠ 0 then
      ⟨FreeListNode.set_next h3.mem prevNode address, h3.purged⟩ else h3
  let fl2 := if fl.headAddr = nextNode then FreeList.mk address fl.tailAddr else fl
  let fl3 := if fl.tailAddr = prevNode then FreeList.mk fl2.headAddr address else fl2
  (fl3, h4)

/-- FreeList.h `remove`: unlink a node.  If it has a previous node, link
the previous to the next (updating the tail if the node was last);
otherwise the node is the head and the list is popped. -/
def remove (fl : FreeList) (h : Heap) (node : Nat) : FreeList × Heap :=
  let pv := FreeListNode.prev h.mem node
  if pv ≠ 0 then
    let nx := FreeListNode.next h.mem node
    let h2 : Heap := ⟨FreeListNode.set_next h.mem pv nx, h.purged⟩
    if nx ≠ 0 then (fl, ⟨FreeListNode.set_prev h2.mem nx pv, h2.purged⟩)
    else (⟨fl.headAddr, pv⟩, h2)
  else
    let r := pop fl h
    (r.2.1, r.2.2)

end FreeList

end Auto

namespace Auto

theorem writeW_same (m : Mem) (a v : Nat) : writeW m a v a = v := by
  simp [writeW]

theorem writeW_other (m : Mem) (a v x : Nat) (h : x ≠ a) :
    writeW m a v x = m x := by
  simp [writeW, h]

theorem flip_flip (p : Nat) : flip (flip p) = p := by
  unfold flip
  rw [Nat.xor_assoc, Nat.xor_self, Nat.xor_zero]

/-- C8: after `set_size(s)` with `s` a whole-word multiple at least the
node header size (32 bytes: three word fields plus the flag byte, padded),
both `size()` and `size_again()` — the word at byte offset `s - 8` from
the node — read back `s`. -/
theorem set_size_roundtrip (m : Mem) (a s : Nat) (hdvd : 8 ∣ s)
    (hhdr : 32 ≤ s) :
    FreeListNode.size (FreeListNode.set_size m a s) a = s ∧
    FreeListNode.size_again (FreeListNode.set_size m a s) a = s ∧
    FreeListNode.set_size m a s (a + (s - 8)) = s := by
  have hsz : FreeListNode.size (FreeListNode.set_size m a s) a = s := by
    unfold FreeListNode.size FreeListNode.set_size
    rw [writeW_other _ _ _ _ (by omega), writeW_same]
  refine ⟨hsz, ?_, ?_⟩
  · unfold FreeListNode.size_again
    rw [hsz]
    unfold FreeListNode.set_size
    rw [writeW_same]
  · unfold FreeListNode.set_size
    rw [writeW_same]

/-- Witness for `set_size_roundtrip` at the all-zero memory, node address
64, size 48. -/
theorem set_size_roundtrip_witness :
    (8 ∣ 48) ∧ (32 ≤ 48) ∧
    (FreeListNode.size (FreeListNode.set_size (fun _ => 0) 64 48) 64 = 48 ∧
     FreeListNode.size_again (FreeListNode.set_size (fun _ => 0) 64 48) 64 = 48 ∧
     FreeListNode.set_size (fun _ => 0) 64 48 (64 + (48 - 8)) = 48) :=
  ⟨by decide, by decide, set_size_roundtrip (fun _ => 0) 64 48 (by decide) (by decide)⟩

/-- C10: the prev/next link fields are stored bitwise complemented and
`flip` is an involution: for every stored pointer value, `next()` after
`set_next(p)` is exactly `p` and `prev()` after `set_prev(p)` is exactly
`p`; the word actually stored for a NULL link is the all-ones pattern. -/
theorem flip_links_roundtrip (m : Mem) (a p : Nat) :
    FreeListNode.next (FreeListNode.set_next m a p) a = p ∧
    FreeListNode.prev (FreeListNode.set_prev m a p) a = p ∧
    FreeListNode.set_next m a 0 (a + 8) = all_ones ∧
    FreeListNode.set_prev m a 0 a = all_ones ∧
    flip (flip p) = p := by
  refine ⟨?_, ?_, ?_, ?_, flip_flip p⟩
  · unfold FreeListNode.next FreeListNode.set_next
    rw [writeW_same, flip_flip]
  · unfold FreeListNode.prev FreeListNode.set_prev
    rw [writeW_same, flip_flip]
  · unfold FreeListNode.set_next
    rw [writeW_same]
    unfold flip all_ones
    rw [Nat.zero_xor]
  · unfold FreeListNode.set_prev
    rw [writeW_same]
    unfold flip all_ones
    rw [Nat.zero_xor]

end Auto

namespace Auto

theorem mkNode_mem (h : Heap) (a pv nx sz : Nat) :
    (mkFreeListNode h a pv nx sz).mem =
      FreeListNode.set_size
        (FreeListNode.set_next (FreeListNode.set_prev h.mem a pv) a nx) a sz := by
  unfold mkFreeListNode
  by_cases hm : sz ≥ allocate_quantum_medium <;> simp [hm]

theorem insertScan_nil (m : Mem) (addr p fuel : Nat) :
    FreeList.insertScan m addr p 0 (fuel + 1) = (p, 0) := by
  simp [FreeList.insertScan]

theorem insertScan_break (m : Mem) (addr p n fuel : Nat) (h0 : n ≠ 0)
    (hlt : addr < n) :
    FreeList.insertScan m addr p n (fuel + 1) = (p, n) := by
  simp [FreeList.insertScan, h0, hlt]

theorem insertScan_step (m : Mem) (addr p n fuel : Nat) (h0 : n ≠ 0)
    (hge : ¬ addr < n) :
    FreeList.insertScan m addr p n (fuel + 1) =
      FreeList.insertScan m addr n (FreeListNode.next m n) fuel := by
  simp [FreeList.insertScan, h0, hge]

/-- `FreeList.insert` with its scan result known: the remaining body is
the in-place node construction, neighbour relinking, and the head/tail
updates. -/
theorem insert_as_scan (fl : FreeList) (h : Heap) (address sz fuel p n : Nat)
    (hscan : FreeList.insertScan h.mem address 0 fl.headAddr fuel = (p, n)) :
    FreeList.insert fl h address sz fuel =
      (if fl.tailAddr = p then
         FreeList.mk (if fl.headAddr = n then address else fl.headAddr) address
       else if fl.headAddr = n then FreeList.mk address fl.tailAddr else fl,
       if p ≠ 0 then
         ⟨FreeListNode.set_next
            (if n ≠ 0 then
               FreeListNode.set_prev (mkFreeListNode h address p n sz).mem n address
             else (mkFreeListNode h address p n sz).mem) p address,
          (mkFreeListNode h address p n sz).purged⟩
       else if n ≠ 0 then
         ⟨FreeListNode.set_prev (mkFreeListNode h address p n sz).mem n address,
          (mkFreeListNode h address p n sz).purged⟩
       else mkFreeListNode h address p n sz) := by
  unfold FreeList.insert
  rw [hscan]
  by_cases hp : p ≠ 0 <;> by_cases hn : n ≠ 0 <;>
    by_cases hh : fl.headAddr = n <;> by_cases ht : fl.tailAddr = p <;>
    simp [hp, hn, hh, ht]

/-- Three `insert` calls on an initially empty list (the claim's scenario;
the loop fuel 4 exceeds every intermediate list length). -/
def insert3 (h : Heap) (a1 s1 a2 s2 a3 s3 : Nat) : FreeList × Heap :=
  let r1 := FreeList.insert ⟨0, 0⟩ h a1 s1 4
  let r2 := FreeList.insert r1.1 r1.2 a2 s2 4
  FreeList.insert r2.1 r2.2 a3 s3 4

/-- The claim's "doubly linked list A,B,C with head A and tail C",
observed through the accessors. -/
def chainABC (fl : FreeList) (hp : Heap) (A B C : Nat) : Prop :=
  fl.headAddr = A ∧ fl.tailAddr = C ∧
  FreeListNode.prev hp.mem A = 0 ∧ FreeListNode.next hp.mem A = B ∧
  FreeListNode.prev hp.mem B = A ∧ FreeListNode.next hp.mem B = C ∧
  FreeListNode.prev hp.mem C = B ∧ FreeListNode.next hp.mem C = 0

instance (fl : FreeList) (hp : Heap) (A B C : Nat) :
    Decidable (chainABC fl hp A B C) := by
  unfold chainABC; infer_instance

end Auto

namespace Auto

/-- The explicit final state of the insertion order A, B, C: head A, tail
C, and the memory write history of the three in-place constructions plus
the two relinking stores. -/
theorem insert3_ABC_state (A B C sa sb sc : Nat) (h : Heap)
    (hA : 0 < A) (hAB : A + sa ≤ B) (hBC : B + sb ≤ C)
    (hsa : 32 ≤ sa) (hsb : 32 ≤ sb) (hsc : 32 ≤ sc) :
    ∃ pu, insert3 h A sa B sb C sc =
      (⟨A, C⟩,
       ⟨FreeListNode.set_next
          (FreeListNode.set_size
            (FreeListNode.set_next
              (FreeListNode.set_prev
                (FreeListNode.set_next
                  (FreeListNode.set_size
                    (FreeListNode.set_next
                      (FreeListNode.set_prev
                        (FreeListNode.set_size
                          (FreeListNode.set_next
                            (FreeListNode.set_prev h.mem A 0) A 0) A sa)
                        B A) B 0) B sb) A B) C B) C 0) C sc) B C,
        pu⟩) := by
  have hA0 : (A : Nat) ≠ 0 := by omega
  have hB0 : (B : Nat) ≠ 0 := by omega
  have e1 : FreeList.insert ⟨0, 0⟩ h A sa 4 = (⟨A, A⟩, mkFreeListNode h A 0 0 sa) := by
    rw [insert_as_scan _ _ _ _ _ 0 0 (insertScan_nil h.mem A 0 3)]
    simp
  have hnext1 : FreeListNode.next (mkFreeListNode h A 0 0 sa).mem A = 0 := by
    rw [mkNode_mem]
    simp (disch := omega) only [FreeListNode.next, FreeListNode.set_prev,
      FreeListNode.set_next, FreeListNode.set_size, writeW_same, writeW_other,
      flip_flip]
  have hscan2 : FreeList.insertScan (mkFreeListNode h A 0 0 sa).mem B 0 A 4 = (A, 0) := by
    rw [insertScan_step _ _ _ _ 3 hA0 (by omega), hnext1, insertScan_nil]
  have e2 : FreeList.insert ⟨A, A⟩ (mkFreeListNode h A 0 0 sa) B sb 4 =
      (⟨A, B⟩,
       ⟨FreeListNode.set_next (mkFreeListNode (mkFreeListNode h A 0 0 sa) B A 0 sb).mem A B,
        (mkFreeListNode (mkFreeListNode h A 0 0 sa) B A 0 sb).purged⟩) := by
    rw [insert_as_scan _ _ _ _ _ A 0 hscan2]
    simp [hA0]
  have hnextA : FreeListNode.next
      (FreeListNode.set_next (mkFreeListNode (mkFreeListNode h A 0 0 sa) B A 0 sb).mem A B)
      A = B := by
    simp only [FreeListNode.next, FreeListNode.set_next, writeW_same, flip_flip]
  have hnextB : FreeListNode.next
      (FreeListNode.set_next (mkFreeListNode (mkFreeListNode h A 0 0 sa) B A 0 sb).mem A B)
      B = 0 := by
    rw [FreeListNode.next, FreeListNode.set_next,
      writeW_other _ _ _ _ (by omega), mkNode_mem]
    simp (disch := omega) only [FreeListNode.next, FreeListNode.set_prev,
      FreeListNode.set_next, FreeListNode.set_size, writeW_same, writeW_other,
      flip_flip]
  have hscan3 : FreeList.insertScan
      (FreeListNode.set_next (mkFreeListNode (mkFreeListNode h A 0 0 sa) B A 0 sb).mem A B)
      C 0 A 4 = (B, 0) := by
    rw [insertScan_step _ _ _ _ 3 hA0 (by omega), hnextA,
      insertScan_step _ _ _ _ 2 hB0 (by omega), hnextB, insertScan_nil]
  have efinal : insert3 h A sa B sb C sc =
      (⟨A, C⟩,
       ⟨FreeListNode.set_next
          (mkFreeListNode
            (⟨FreeListNode.set_next
                (mkFreeListNode (mkFreeListNode h A 0 0 sa) B A 0 sb).mem A B,
              (mkFreeListNode (mkFreeListNode h A 0 0 sa) B A 0 sb).purged⟩ : Heap)
            C B 0 sc).mem B C,
        (mkFreeListNode
          (⟨FreeListNode.set_next
              (mkFreeListNode (mkFreeListNode h A 0 0 sa) B A 0 sb).mem A B,
            (mkFreeListNode (mkFreeListNode h A 0 0 sa) B A 0 sb).purged⟩ : Heap)
          C B 0 sc).purged⟩) := by
    unfold insert3
    rw [e1]
    simp only
    rw [e2]
    simp only
    rw [insert_as_scan _ _ _ _ _ B 0 hscan3]
    simp [hB0, show ¬ (A : Nat) = 0 from hA0, show ¬ (A : Nat) = B by omega]
  refine ⟨(mkFreeListNode
      (⟨FreeListNode.set_next
          (mkFreeListNode (mkFreeListNode h A 0 0 sa) B A 0 sb).mem A B,
        (mkFreeListNode (mkFreeListNode h A 0 0 sa) B A 0 sb).purged⟩ : Heap)
      C B 0 sc).purged, ?_⟩
  rw [efinal]
  simp only [mkNode_mem]

end Auto

namespace Auto

theorem insert_into_empty (h : Heap) (a s : Nat) :
    FreeList.insert ⟨0, 0⟩ h a s 4 = (⟨a, a⟩, mkFreeListNode h a 0 0 s) := by
  rw [insert_as_scan _ _ _ _ _ 0 0 (insertScan_nil h.mem a 0 3)]
  simp

theorem next_of_mkNode_self (h : Heap) (a pv nx sz : Nat) (hsz : 24 ≤ sz) :
    FreeListNode.next (mkFreeListNode h a pv nx sz).mem a = nx := by
  rw [mkNode_mem]
  simp (disch := omega) only [FreeListNode.next, FreeListNode.set_prev,
    FreeListNode.set_next, FreeListNode.set_size, writeW_same, writeW_other,
    flip_flip]

theorem insert_after_one (hp : Heap) (x z s : Nat) (hx0 : x ≠ 0)
    (hnx : FreeListNode.next hp.mem x = 0) (hzx : ¬ z < x) :
    FreeList.insert ⟨x, x⟩ hp z s 4 =
      (⟨x, z⟩,
       ⟨FreeListNode.set_next (mkFreeListNode hp z x 0 s).mem x z,
        (mkFreeListNode hp z x 0 s).purged⟩) := by
  have hscan : FreeList.insertScan hp.mem z 0 x 4 = (x, 0) := by
    rw [insertScan_step _ _ _ _ 3 hx0 hzx, hnx, insertScan_nil]
  rw [insert_as_scan _ _ _ _ _ x 0 hscan]
  simp [hx0]

theorem insert_before_one (hp : Heap) (x z s : Nat) (hx0 : x ≠ 0)
    (hzx : z < x) :
    FreeList.insert ⟨x, x⟩ hp z s 4 =
      (⟨z, x⟩,
       ⟨FreeListNode.set_prev (mkFreeListNode hp z 0 x s).mem x z,
        (mkFreeListNode hp z 0 x s).purged⟩) := by
  have hscan : FreeList.insertScan hp.mem z 0 x 4 = (0, x) :=
    insertScan_break _ _ _ _ 3 hx0 hzx
  rw [insert_as_scan _ _ _ _ _ 0 x hscan]
  simp [hx0, Ne.symm hx0]

theorem insert_tail_of_two (hp : Heap) (x y z s : Nat) (hx0 : x ≠ 0)
    (hy0 : y ≠ 0)
    (hnx : FreeListNode.next hp.mem x = y)
    (hny : FreeListNode.next hp.mem y = 0)
    (hzx : ¬ z < x) (hzy : ¬ z < y) :
    FreeList.insert ⟨x, y⟩ hp z s 4 =
      (⟨x, z⟩,
       ⟨FreeListNode.set_next (mkFreeListNode hp z y 0 s).mem y z,
        (mkFreeListNode hp z y 0 s).purged⟩) := by
  have hscan : FreeList.insertScan hp.mem z 0 x 4 = (y, 0) := by
    rw [insertScan_step _ _ _ _ 3 hx0 hzx, hnx,
      insertScan_step _ _ _ _ 2 hy0 hzy, hny, insertScan_nil]
  rw [insert_as_scan _ _ _ _ _ y 0 hscan]
  simp [hx0, hy0]

theorem insert_middle_of_two (hp : Heap) (x y z s : Nat) (hx0 : x ≠ 0)
    (hy0 : y ≠ 0) (hxy : x ≠ y) (hyx : y ≠ x)
    (hnx : FreeListNode.next hp.mem x = y)
    (hzx : ¬ z < x) (hzy : z < y) :
    FreeList.insert ⟨x, y⟩ hp z s 4 =
      (⟨x, y⟩,
       ⟨FreeListNode.set_next
          (FreeListNode.set_prev (mkFreeListNode hp z x y s).mem y z) x z,
        (mkFreeListNode hp z x y s).purged⟩) := by
  have hscan : FreeList.insertScan hp.mem z 0 x 4 = (x, y) := by
    rw [insertScan_step _ _ _ _ 3 hx0 hzx, hnx, insertScan_break _ _ _ _ 2 hy0 hzy]
  rw [insert_as_scan _ _ _ _ _ x y hscan]
  simp [hx0, hy0, hxy, hyx]

theorem insert_front_of_two (hp : Heap) (x y z s : Nat) (hx0 : x ≠ 0)
    (hy0 : y ≠ 0) (hzx : z < x) :
    FreeList.insert ⟨x, y⟩ hp z s 4 =
      (⟨z, y⟩,
       ⟨FreeListNode.set_prev (mkFreeListNode hp z 0 x s).mem x z,
        (mkFreeListNode hp z 0 x s).purged⟩) := by
  have hscan : FreeList.insertScan hp.mem z 0 x 4 = (0, x) :=
    insertScan_break _ _ _ _ 3 hx0 hzx
  rw [insert_as_scan _ _ _ _ _ 0 x hscan]
  simp [hx0, hy0, Ne.symm hy0]

end Auto

namespace Auto

theorem insert3_chain_ABC (A B C sa sb sc : Nat) (h : Heap)
    (hA : 0 < A) (hAB : A + sa ≤ B) (hBC : B + sb ≤ C)
    (hsa : 32 ≤ sa) (hsb : 32 ≤ sb) (hsc : 32 ≤ sc) :
    chainABC (insert3 h A sa B sb C sc).1 (insert3 h A sa B sb C sc).2 A B C := by
  obtain ⟨pu, hst⟩ := insert3_ABC_state A B C sa sb sc h hA hAB hBC hsa hsb hsc
  rw [hst]
  unfold chainABC
  refine ⟨rfl, rfl, ?_, ?_, ?_, ?_, ?_, ?_⟩ <;>
    simp (disch := omega) only [FreeListNode.next, FreeListNode.prev,
      FreeListNode.set_prev, FreeListNode.set_next, FreeListNode.set_size,
      writeW_same, writeW_other, flip_flip]

theorem insert3_chain_ACB (A B C sa sb sc : Nat) (h : Heap)
    (hA : 0 < A) (hAB : A + sa ≤ B) (hBC : B + sb ≤ C)
    (hsa : 32 ≤ sa) (hsb : 32 ≤ sb) (hsc : 32 ≤ sc) :
    chainABC (insert3 h A sa C sc B sb).1 (insert3 h A sa C sc B sb).2 A B C := by
  have hA0 : (A : Nat) ≠ 0 := by omega
  have hC0 : (C : Nat) ≠ 0 := by omega
  unfold insert3
  rw [insert_into_empty]
  simp only
  rw [insert_after_one _ _ _ _ hA0 (next_of_mkNode_self h A 0 0 sa (by omega))
    (by omega)]
  simp only
  rw [insert_middle_of_two _ _ _ _ _ hA0 hC0 (by omega) (by omega) ?hnx
    (by omega) (by omega)]
  case hnx =>
    simp only [FreeListNode.next, FreeListNode.set_next, writeW_same, flip_flip]
  unfold chainABC
  refine ⟨rfl, rfl, ?_, ?_, ?_, ?_, ?_, ?_⟩ <;>
    simp (disch := omega) only [mkNode_mem, FreeListNode.next, FreeListNode.prev,
      FreeListNode.set_prev, FreeListNode.set_next, FreeListNode.set_size,
      writeW_same, writeW_other, flip_flip]

theorem insert3_chain_BAC (A B C sa sb sc : Nat) (h : Heap)
    (hA : 0 < A) (hAB : A + sa ≤ B) (hBC : B + sb ≤ C)
    (hsa : 32 ≤ sa) (hsb : 32 ≤ sb) (hsc : 32 ≤ sc) :
    chainABC (insert3 h B sb A sa C sc).1 (insert3 h B sb A sa C sc).2 A B C := by
  have hA0 : (A : Nat) ≠ 0 := by omega
  have hB0 : (B : Nat) ≠ 0 := by omega
  unfold insert3
  rw [insert_into_empty]
  simp only
  rw [insert_before_one _ _ _ _ hB0 (by omega)]
  simp only
  rw [insert_tail_of_two _ _ _ _ _ hA0 hB0 ?hnx ?hny (by omega) (by omega)]
  case hnx =>
    simp (disch := omega) only [mkNode_mem, FreeListNode.next, FreeListNode.prev,
      FreeListNode.set_prev, FreeListNode.set_next, FreeListNode.set_size,
      writeW_same, writeW_other, flip_flip]
  case hny =>
    simp (disch := omega) only [mkNode_mem, FreeListNode.next, FreeListNode.prev,
      FreeListNode.set_prev, FreeListNode.set_next, FreeListNode.set_size,
      writeW_same, writeW_other, flip_flip]
  unfold chainABC
  refine ⟨rfl, rfl, ?_, ?_, ?_, ?_, ?_, ?_⟩ <;>
    simp (disch := omega) only [mkNode_mem, FreeListNode.next, FreeListNode.prev,
      FreeListNode.set_prev, FreeListNode.set_next, FreeListNode.set_size,
      writeW_same, writeW_other, flip_flip]

theorem insert3_chain_BCA (A B C sa sb sc : Nat) (h : Heap)
    (hA : 0 < A) (hAB : A + sa ≤ B) (hBC : B + sb ≤ C)
    (hsa : 32 ≤ sa) (hsb : 32 ≤ sb) (hsc : 32 ≤ sc) :
    chainABC (insert3 h B sb C sc A sa).1 (insert3 h B sb C sc A sa).2 A B C := by
  have hB0 : (B : Nat) ≠ 0 := by omega
  have hC0 : (C : Nat) ≠ 0 := by omega
  unfold insert3
  rw [insert_into_empty]
  simp only
  rw [insert_after_one _ _ _ _ hB0 (next_of_mkNode_self h B 0 0 sb (by omega))
    (by omega)]
  simp only
  rw [insert_front_of_two _ _ _ _ _ hB0 hC0 (by omega)]
  unfold chainABC
  refine ⟨rfl, rfl, ?_, ?_, ?_, ?_, ?_, ?_⟩ <;>
    simp (disch := omega) only [mkNode_mem, FreeListNode.next, FreeListNode.prev,
      FreeListNode.set_prev, FreeListNode.set_next, FreeListNode.set_size,
      writeW_same, writeW_other, flip_flip]

theorem insert3_chain_CAB (A B C sa sb sc : Nat) (h : Heap)
    (hA : 0 < A) (hAB : A + sa ≤ B) (hBC : B + sb ≤ C)
    (hsa : 32 ≤ sa) (hsb : 32 ≤ sb) (hsc : 32 ≤ sc) :
    chainABC (insert3 h C sc A sa B sb).1 (insert3 h C sc A sa B sb).2 A B C := by
  have hA0 : (A : Nat) ≠ 0 := by omega
  have hC0 : (C : Nat) ≠ 0 := by omega
  unfold insert3
  rw [insert_into_empty]
  simp only
  rw [insert_before_one _ _ _ _ hC0 (by omega)]
  simp only
  rw [insert_middle_of_two _ _ _ _ _ hA0 hC0 (by omega) (by omega) ?hnx
    (by omega) (by omega)]
  case hnx =>
    simp (disch := omega) only [mkNode_mem, FreeListNode.next, FreeListNode.prev,
      FreeListNode.set_prev, FreeListNode.set_next, FreeListNode.set_size,
      writeW_same, writeW_other, flip_flip]
  unfold chainABC
  refine ⟨rfl, rfl, ?_, ?_, ?_, ?_, ?_, ?_⟩ <;>
    simp (disch := omega) only [mkNode_mem, FreeListNode.next, FreeListNode.prev,
      FreeListNode.set_prev, FreeListNode.set_next, FreeListNode.set_size,
      writeW_same, writeW_other, flip_flip]

theorem insert3_chain_CBA (A B C sa sb sc : Nat) (h : Heap)
    (hA : 0 < A) (hAB : A + sa ≤ B) (hBC : B + sb ≤ C)
    (hsa : 32 ≤ sa) (hsb : 32 ≤ sb) (hsc : 32 ≤ sc) :
    chainABC (insert3 h C sc B sb A sa).1 (insert3 h C sc B sb A sa).2 A B C := by
  have hB0 : (B : Nat) ≠ 0 := by omega
  have hC0 : (C : Nat) ≠ 0 := by omega
  unfold insert3
  rw [insert_into_empty]
  simp only
  rw [insert_before_one _ _ _ _ hC0 (by omega)]
  simp only
  rw [insert_front_of_two _ _ _ _ _ hB0 hC0 (by omega)]
  unfold chainABC
  refine ⟨rfl, rfl, ?_, ?_, ?_, ?_, ?_, ?_⟩ <;>
    simp (disch := omega) only [mkNode_mem, FreeListNode.next, FreeListNode.prev,
      FreeListNode.set_prev, FreeListNode.set_next, FreeListNode.set_size,
      writeW_same, writeW_other, flip_flip]

end Auto

namespace Auto

theorem pop_after_ABC (A B C sa sb sc : Nat) (h : Heap)
    (hA : 0 < A) (hAB : A + sa ≤ B) (hBC : B + sb ≤ C)
    (hsa : 32 ≤ sa) (hsb : 32 ≤ sb) (hsc : 32 ≤ sc) :
    (FreeList.pop (insert3 h A sa B sb C sc).1 (insert3 h A sa B sb C sc).2).1 = A ∧
    (FreeList.pop (insert3 h A sa B sb C sc).1 (insert3 h A sa B sb C sc).2).2.1.headAddr = B ∧
    (FreeList.pop (insert3 h A sa B sb C sc).1 (insert3 h A sa B sb C sc).2).2.1.tailAddr = C ∧
    FreeListNode.prev (FreeList.pop (insert3 h A sa B sb C sc).1 (insert3 h A sa B sb C sc).2).2.2.mem B = 0 ∧
    FreeListNode.next (FreeList.pop (insert3 h A sa B sb C sc).1 (insert3 h A sa B sb C sc).2).2.2.mem B = C ∧
    FreeListNode.prev (FreeList.pop (insert3 h A sa B sb C sc).1 (insert3 h A sa B sb C sc).2).2.2.mem C = B ∧
    FreeListNode.next (FreeList.pop (insert3 h A sa B sb C sc).1 (insert3 h A sa B sb C sc).2).2.2.mem C = 0 := by
  obtain ⟨pu, hst⟩ := insert3_ABC_state A B C sa sb sc h hA hAB hBC hsa hsb hsc
  rw [hst]
  unfold FreeList.pop
  refine ⟨?_, ?_, ?_, ?_, ?_, ?_, ?_⟩ <;>
    simp (disch := omega) only [FreeListNode.next, FreeListNode.prev,
      FreeListNode.set_prev, FreeListNode.set_next, FreeListNode.set_size,
      writeW_same, writeW_other, flip_flip, if_pos, ne_eq, not_false_eq_true,
      ite_not]

theorem remove_after_ABC (A B C sa sb sc : Nat) (h : Heap)
    (hA : 0 < A) (hAB : A + sa ≤ B) (hBC : B + sb ≤ C)
    (hsa : 32 ≤ sa) (hsb : 32 ≤ sb) (hsc : 32 ≤ sc) :
    (FreeList.remove (insert3 h A sa B sb C sc).1 (insert3 h A sa B sb C sc).2 B).1.headAddr = A ∧
    (FreeList.remove (insert3 h A sa B sb C sc).1 (insert3 h A sa B sb C sc).2 B).1.tailAddr = C ∧
    FreeListNode.prev (FreeList.remove (insert3 h A sa B sb C sc).1 (insert3 h A sa B sb C sc).2 B).2.mem A = 0 ∧
    FreeListNode.next (FreeList.remove (insert3 h A sa B sb C sc).1 (insert3 h A sa B sb C sc).2 B).2.mem A = C ∧
    FreeListNode.prev (FreeList.remove (insert3 h A sa B sb C sc).1 (insert3 h A sa B sb C sc).2 B).2.mem C = A ∧
    FreeListNode.next (FreeList.remove (insert3 h A sa B sb C sc).1 (insert3 h A sa B sb C sc).2 B).2.mem C = 0 := by
  obtain ⟨pu, hst⟩ := insert3_ABC_state A B C sa sb sc h hA hAB hBC hsa hsb hsc
  rw [hst]
  unfold FreeList.remove
  refine ⟨?_, ?_, ?_, ?_, ?_, ?_⟩ <;>
    simp (disch := omega) only [FreeListNode.next, FreeListNode.prev,
      FreeListNode.set_prev, FreeListNode.set_next, FreeListNode.set_size,
      writeW_same, writeW_other, flip_flip, if_pos, ne_eq, not_false_eq_true,
      ite_not]

end Auto

namespace Auto

/-- C6: inserting three non-overlapping free blocks at addresses A < B < C
(each at least node-header sized, so a node fits in its block) into an
initially empty FreeList via `insert`, in any of the 6 possible call
orders, yields the doubly linked list A,B,C with head A and tail C; from
that list, `pop()` returns A leaving B,C with B's prev null, and
`remove(B)` applied to A,B,C leaves A,C with A's next == C and C's prev
== A. -/
theorem freelist_insert_orders_pop_remove (A B C sa sb sc : Nat) (h : Heap)
    (hA : 0 < A) (hAB : A + sa ≤ B) (hBC : B + sb ≤ C)
    (hsa : 32 ≤ sa) (hsb : 32 ≤ sb) (hsc : 32 ≤ sc) :
    (chainABC (insert3 h A sa B sb C sc).1 (insert3 h A sa B sb C sc).2 A B C ∧
     chainABC (insert3 h A sa C sc B sb).1 (insert3 h A sa C sc B sb).2 A B C ∧
     chainABC (insert3 h B sb A sa C sc).1 (insert3 h B sb A sa C sc).2 A B C ∧
     chainABC (insert3 h B sb C sc A sa).1 (insert3 h B sb C sc A sa).2 A B C ∧
     chainABC (insert3 h C sc A sa B sb).1 (insert3 h C sc A sa B sb).2 A B C ∧
     chainABC (insert3 h C sc B sb A sa).1 (insert3 h C sc B sb A sa).2 A B C) ∧
    ((FreeList.pop (insert3 h A sa B sb C sc).1 (insert3 h A sa B sb C sc).2).1 = A ∧
     (FreeList.pop (insert3 h A sa B sb C sc).1 (insert3 h A sa B sb C sc).2).2.1.headAddr = B ∧
     (FreeList.pop (insert3 h A sa B sb C sc).1 (insert3 h A sa B sb C sc).2).2.1.tailAddr = C ∧
     FreeListNode.prev (FreeList.pop (insert3 h A sa B sb C sc).1 (insert3 h A sa B sb C sc).2).2.2.mem B = 0 ∧
     FreeListNode.next (FreeList.pop (insert3 h A sa B sb C sc).1 (insert3 h A sa B sb C sc).2).2.2.mem B = C ∧
     FreeListNode.prev (FreeList.pop (insert3 h A sa B sb C sc).1 (insert3 h A sa B sb C sc).2).2.2.mem C = B ∧
     FreeListNode.next (FreeList.pop (insert3 h A sa B sb C sc).1 (insert3 h A sa B sb C sc).2).2.2.mem C = 0) ∧
    ((FreeList.remove (insert3 h A sa B sb C sc).1 (insert3 h A sa B sb C sc).2 B).1.headAddr = A ∧
     (FreeList.remove (insert3 h A sa B sb C sc).1 (insert3 h A sa B sb C sc).2 B).1.tailAddr = C ∧
     FreeListNode.prev (FreeList.remove (insert3 h A sa B sb C sc).1 (insert3 h A sa B sb C sc).2 B).2.mem A = 0 ∧
     FreeListNode.next (FreeList.remove (insert3 h A sa B sb C sc).1 (insert3 h A sa B sb C sc).2 B).2.mem A = C ∧
     FreeListNode.prev (FreeList.remove (insert3 h A sa B sb C sc).1 (insert3 h A sa B sb C sc).2 B).2.mem C = A ∧
     FreeListNode.next (FreeList.remove (insert3 h A sa B sb C sc).1 (insert3 h A sa B sb C sc).2 B).2.mem C = 0) :=
  ⟨⟨insert3_chain_ABC A B C sa sb sc h hA hAB hBC hsa hsb hsc,
    insert3_chain_ACB A B C sa sb sc h hA hAB hBC hsa hsb hsc,
    insert3_chain_BAC A B C sa sb sc h hA hAB hBC hsa hsb hsc,
    insert3_chain_BCA A B C sa sb sc h hA hAB hBC hsa hsb hsc,
    insert3_chain_CAB A B C sa sb sc h hA hAB hBC hsa hsb hsc,
    insert3_chain_CBA A B C sa sb sc h hA hAB hBC hsa hsb hsc⟩,
   pop_after_ABC A B C sa sb sc h hA hAB hBC hsa hsb hsc,
   remove_after_ABC A B C sa sb sc h hA hAB hBC hsa hsb hsc⟩

/-- Witness for `freelist_insert_orders_pop_remove` at blocks of 32 bytes
placed at addresses 64, 128, 256 over the all-zero heap. -/
theorem freelist_insert_orders_pop_remove_witness :
    ((0 < 64 ∧ 64 + 32 ≤ 128 ∧ 128 + 32 ≤ 256) ∧
     (32 ≤ 32 ∧ 32 ≤ 32 ∧ 32 ≤ 32)) ∧
    ((chainABC (insert3 ⟨fun _ => 0, fun _ => false⟩ 64 32 128 32 256 32).1
        (insert3 ⟨fun _ => 0, fun _ => false⟩ 64 32 128 32 256 32).2 64 128 256 ∧
      chainABC (insert3 ⟨fun _ => 0, fun _ => false⟩ 64 32 256 32 128 32).1
        (insert3 ⟨fun _ => 0, fun _ => false⟩ 64 32 256 32 128 32).2 64 128 256 ∧
      chainABC (insert3 ⟨fun _ => 0, fun _ => false⟩ 128 32 64 32 256 32).1
        (insert3 ⟨fun _ => 0, fun _ => false⟩ 128 32 64 32 256 32).2 64 128 256 ∧
      chainABC (insert3 ⟨fun _ => 0, fun _ => false⟩ 128 32 256 32 64 32).1
        (insert3 ⟨fun _ => 0, fun _ => false⟩ 128 32 256 32 64 32).2 64 128 256 ∧
      chainABC (insert3 ⟨fun _ => 0, fun _ => false⟩ 256 32 64 32 128 32).1
        (insert3 ⟨fun _ => 0, fun _ => false⟩ 256 32 64 32 128 32).2 64 128 256 ∧
      chainABC (insert3 ⟨fun _ => 0, fun _ => false⟩ 256 32 128 32 64 32).1
        (insert3 ⟨fun _ => 0, fun _ => false⟩ 256 32 128 32 64 32).2 64 128 256) ∧
     ((FreeList.pop (insert3 ⟨fun _ => 0, fun _ => false⟩ 64 32 128 32 256 32).1
         (insert3 ⟨fun _ => 0, fun _ => false⟩ 64 32 128 32 256 32).2).1 = 64 ∧
      (FreeList.pop (insert3 ⟨fun _ => 0, fun _ => false⟩ 64 32 128 32 256 32).1
         (insert3 ⟨fun _ => 0, fun _ => false⟩ 64 32 128 32 256 32).2).2.1.headAddr = 128 ∧
      (FreeList.pop (insert3 ⟨fun _ => 0, fun _ => false⟩ 64 32 128 32 256 32).1
         (insert3 ⟨fun _ => 0, fun _ => false⟩ 64 32 128 32 256 32).2).2.1.tailAddr = 256 ∧
      FreeListNode.prev (FreeList.pop (insert3 ⟨fun _ => 0, fun _ => false⟩ 64 32 128 32 256 32).1
         (insert3 ⟨fun _ => 0, fun _ => false⟩ 64 32 128 32 256 32).2).2.2.mem 128 = 0 ∧
      FreeListNode.next (FreeList.pop (insert3 ⟨fun _ => 0, fun _ => false⟩ 64 32 128 32 256 32).1
         (insert3 ⟨fun _ => 0, fun _ => false⟩ 64 32 128 32 256 32).2).2.2.mem 128 = 256 ∧
      FreeListNode.prev (FreeList.pop (insert3 ⟨fun _ => 0, fun _ => false⟩ 64 32 128 32 256 32).1
         (insert3 ⟨fun _ => 0, fun _ => false⟩ 64 32 128 32 256 32).2).2.2.mem 256 = 128 ∧
      FreeListNode.next (FreeList.pop (insert3 ⟨fun _ => 0, fun _ => false⟩ 64 32 128 32 256 32).1
         (insert3 ⟨fun _ => 0, fun _ => false⟩ 64 32 128 32 256 32).2).2.2.mem 256 = 0) ∧
     ((FreeList.remove (insert3 ⟨fun _ => 0, fun _ => false⟩ 64 32 128 32 256 32).1
         (insert3 ⟨fun _ => 0, fun _ => false⟩ 64 32 128 32 256 32).2 128).1.headAddr = 64 ∧
      (FreeList.remove (insert3 ⟨fun _ => 0, fun _ => false⟩ 64 32 128 32 256 32).1
         (insert3 ⟨fun _ => 0, fun _ => false⟩ 64 32 128 32 256 32).2 128).1.tailAddr = 256 ∧
      FreeListNode.prev (FreeList.remove (insert3 ⟨fun _ => 0, fun _ => false⟩ 64 32 128 32 256 32).1
         (insert3 ⟨fun _ => 0, fun _ => false⟩ 64 32 128 32 256 32).2 128).2.mem 64 = 0 ∧
      FreeListNode.next (FreeList.remove (insert3 ⟨fun _ => 0, fun _ => false⟩ 64 32 128 32 256 32).1
         (insert3 ⟨fun _ => 0, fun _ => false⟩ 64 32 128 32 256 32).2 128).2.mem 64 = 256 ∧
      FreeListNode.prev (FreeList.remove (insert3 ⟨fun _ => 0, fun _ => false⟩ 64 32 128 32 256 32).1
         (insert3 ⟨fun _ => 0, fun _ => false⟩ 64 32 128 32 256 32).2 128).2.mem 256 = 64 ∧
      FreeListNode.next (FreeList.remove (insert3 ⟨fun _ => 0, fun _ => false⟩ 64 32 128 32 256 32).1
         (insert3 ⟨fun _ => 0, fun _ => false⟩ 64 32 128 32 256 32).2 128).2.mem 256 = 0)) :=
  ⟨⟨⟨by omega, by omega, by omega⟩, ⟨by omega, by omega, by omega⟩⟩,
   freelist_insert_orders_pop_remove 64 128 256 32 32 32
     ⟨fun _ => 0, fun _ => false⟩ (by omega) (by omega) (by omega)
     (by omega) (by omega) (by omega)⟩

end Auto

namespace Auto

theorem testBit_all_ones (r : Nat) : all_ones.testBit r = decide (r < 64) := by
  unfold all_ones
  exact Nat.testBit_two_pow_sub_one 64 r

theorem testBit_mask (n t : Nat) : (mask n).testBit t = decide (t < n) := by
  unfold mask
  exact Nat.testBit_two_pow_sub_one n t

theorem testBit_trunc_shiftLeft_all_ones (sh r : Nat) (hr : r < 64) :
    (trunc (all_ones <<< sh)).testBit r = decide (sh ≤ r) := by
  rw [testBit_trunc _ _ hr, Nat.testBit_shiftLeft, testBit_all_ones]
  by_cases h : sh ≤ r
  · simp [h, ge_iff_le, show r - sh < 64 by omega]
  · simp [h, ge_iff_le]

theorem all_ones_shiftRight (R : Nat) (h : R ≤ 64) :
    all_ones >>> (64 - R) = mask R := by
  apply Nat.eq_of_testBit_eq
  intro t
  rw [Nat.testBit_shiftRight, testBit_all_ones, testBit_mask]
  by_cases ht : t < R <;> simp [ht] <;> omega

theorem word_writeOnesFrom (k : Nat) : ∀ (m : Bitmap) (c j : Nat),
    (Bitmap.writeOnesFrom m c k).word j =
      if c ≤ j ∧ j < c + k ∧ j < m.words.length then all_ones
      else m.word j := by
  induction k with
  | zero =>
    intro m c j
    rw [Bitmap.writeOnesFrom, if_neg (by omega)]
  | succ k ih =>
    intro m c j
    rw [Bitmap.writeOnesFrom, ih, length_setWord]
    by_cases h1 : c + 1 ≤ j ∧ j < c + 1 + k ∧ j < m.words.length
    · rw [if_pos h1, if_pos (by omega)]
    · rw [if_neg h1, word_setWord]
      by_cases h2 : c = j ∧ c < m.words.length
      · rw [if_pos h2, if_pos (by omega)]
      · rw [if_neg h2, if_neg (by omega)]

theorem length_writeOnesFrom (k : Nat) : ∀ (m : Bitmap) (c : Nat),
    (Bitmap.writeOnesFrom m c k).words.length = m.words.length := by
  induction k with
  | zero => intro m c; rfl
  | succ k ih => intro m c; rw [Bitmap.writeOnesFrom, ih, length_setWord]

theorem word_writeZerosFrom (k : Nat) : ∀ (m : Bitmap) (c j : Nat),
    (Bitmap.writeZerosFrom m c k).word j =
      if c ≤ j ∧ j < c + k ∧ j < m.words.length then 0
      else m.word j := by
  induction k with
  | zero =>
    intro m c j
    rw [Bitmap.writeZerosFrom, if_neg (by omega)]
  | succ k ih =>
    intro m c j
    rw [Bitmap.writeZerosFrom, ih, length_setWord]
    by_cases h1 : c + 1 ≤ j ∧ j < c + 1 + k ∧ j < m.words.length
    · rw [if_pos h1, if_pos (by omega)]
    · rw [if_neg h1, word_setWord]
      by_cases h2 : c = j ∧ c < m.words.length
      · rw [if_pos h2, if_pos (by omega)]
      · rw [if_neg h2, if_neg (by omega)]

theorem length_writeZerosFrom (k : Nat) : ∀ (m : Bitmap) (c : Nat),
    (Bitmap.writeZerosFrom m c k).words.length = m.words.length := by
  induction k with
  | zero => intro m c; rfl
  | succ k ih => intro m c; rw [Bitmap.writeZerosFrom, ih, length_setWord]

end Auto

namespace Auto

theorem word_set_bits_large (m : Bitmap) (bp n j : Nat)
    (hspan : 64 < bp % 64 + n) :
    (m.set_bits_large bp n).word j =
      if j = bp / 64 ∧ j < m.words.length then
        m.word (bp / 64) ||| trunc (all_ones <<< (bp % 64))
      else if bp / 64 + 1 ≤ j ∧ j < bp / 64 + 1 + (bp % 64 + n - 64) / 64 ∧
          j < m.words.length then all_ones
      else if j = bp / 64 + 1 + (bp % 64 + n - 64) / 64 ∧
          0 < (bp % 64 + n - 64) % 64 ∧ j < m.words.length then
        m.word j ||| mask ((bp % 64 + n - 64) % 64)
      else m.word j := by
  have hmod : (bp % 64 + n - 64) % 64 < 64 := Nat.mod_lt _ (by omega)
  have hdm : 64 * ((bp % 64 + n - 64) / 64) + (bp % 64 + n - 64) % 64
      = bp % 64 + n - 64 := Nat.div_add_mod _ 64
  simp only [Bitmap.set_bits_large, index_eq_div, shift_eq_mod, bits_per_word]
  by_cases hR : (bp % 64 + n - 64) % 64 > 0
  · rw [if_pos hR, word_setWord, length_writeOnesFrom, length_setWord]
    by_cases hje : bp / 64 + 1 + (bp % 64 + n - 64) / 64 = j
    · subst hje
      by_cases hjl : bp / 64 + 1 + (bp % 64 + n - 64) / 64 < m.words.length
      · rw [if_pos ⟨rfl, hjl⟩]
        rw [word_writeOnesFrom, length_setWord, if_neg (by omega), word_setWord,
          if_neg (by omega)]
        rw [if_neg (by omega), if_neg (by omega), if_pos ⟨rfl, hR, hjl⟩,
          all_ones_shiftRight _ (by omega)]
      · rw [if_neg (fun hc => hjl hc.2), word_writeOnesFrom, length_setWord,
          if_neg (by omega), word_setWord, if_neg (by omega),
          if_neg (by omega), if_neg (by omega), if_neg (by omega)]
    · rw [if_neg (fun hc => hje hc.1), word_writeOnesFrom, length_setWord]
      by_cases hj2 : bp / 64 + 1 ≤ j ∧ j < bp / 64 + 1 + (bp % 64 + n - 64) / 64 ∧
          j < m.words.length
      · rw [if_pos hj2, if_neg (by omega), if_pos hj2]
      · rw [if_neg hj2, word_setWord]
        by_cases hj3 : bp / 64 = j ∧ bp / 64 < m.words.length
        · rw [if_pos hj3, if_pos (by omega)]
        · rw [if_neg hj3, if_neg (by omega), if_neg (by omega), if_neg (by omega)]
  · rw [if_neg hR, word_writeOnesFrom, length_setWord]
    by_cases hj2 : bp / 64 + 1 ≤ j ∧ j < bp / 64 + 1 + (bp % 64 + n - 64) / 64 ∧
        j < m.words.length
    · rw [if_pos hj2, if_neg (by omega), if_pos hj2]
    · rw [if_neg hj2, word_setWord]
      by_cases hj3 : bp / 64 = j ∧ bp / 64 < m.words.length
      · rw [if_pos hj3, if_pos (by omega), hj3.1]
      · rw [if_neg hj3, if_neg (by omega), if_neg (by omega), if_neg (by omega)]

end Auto

namespace Auto

theorem word_clear_bits_large (m : Bitmap) (bp n j : Nat)
    (hspan : 64 < bp % 64 + n) :
    (m.clear_bits_large bp n).word j =
      if j = bp / 64 ∧ j < m.words.length then
        m.word (bp / 64) &&& compl64 (all_ones <<< (bp % 64))
      else if bp / 64 + 1 ≤ j ∧ j < bp / 64 + 1 + (bp % 64 + n - 64) / 64 ∧
          j < m.words.length then 0
      else if j = bp / 64 + 1 + (bp % 64 + n - 64) / 64 ∧
          0 < (bp % 64 + n - 64) % 64 ∧ j < m.words.length then
        m.word j &&& compl64 (mask ((bp % 64 + n - 64) % 64))
      else m.word j := by
  have hmod : (bp % 64 + n - 64) % 64 < 64 := Nat.mod_lt _ (by omega)
  have hdm : 64 * ((bp % 64 + n - 64) / 64) + (bp % 64 + n - 64) % 64
      = bp % 64 + n - 64 := Nat.div_add_mod _ 64
  simp only [Bitmap.clear_bits_large, index_eq_div, shift_eq_mod, bits_per_word]
  by_cases hR : (bp % 64 + n - 64) % 64 > 0
  · rw [if_pos hR, word_setWord, length_writeZerosFrom, length_setWord]
    by_cases hje : bp / 64 + 1 + (bp % 64 + n - 64) / 64 = j
    · subst hje
      by_cases hjl : bp / 64 + 1 + (bp % 64 + n - 64) / 64 < m.words.length
      · rw [if_pos ⟨rfl, hjl⟩]
        rw [word_writeZerosFrom, length_setWord, if_neg (by omega), word_setWord,
          if_neg (by omega)]
        rw [if_neg (by omega), if_neg (by omega), if_pos ⟨rfl, hR, hjl⟩,
          all_ones_shiftRight _ (by omega)]
      · rw [if_neg (fun hc => hjl hc.2), word_writeZerosFrom, length_setWord,
          if_neg (by omega), word_setWord, if_neg (by omega),
          if_neg (by omega), if_neg (by omega), if_neg (by omega)]
    · rw [if_neg (fun hc => hje hc.1), word_writeZerosFrom, length_setWord]
      by_cases hj2 : bp / 64 + 1 ≤ j ∧ j < bp / 64 + 1 + (bp % 64 + n - 64) / 64 ∧
          j < m.words.length
      · rw [if_pos hj2, if_neg (by omega), if_pos hj2]
      · rw [if_neg hj2, word_setWord]
        by_cases hj3 : bp / 64 = j ∧ bp / 64 < m.words.length
        · rw [if_pos hj3, if_pos (by omega)]
        · rw [if_neg hj3, if_neg (by omega), if_neg (by omega), if_neg (by omega)]
  · rw [if_neg hR, word_writeZerosFrom, length_setWord]
    by_cases hj2 : bp / 64 + 1 ≤ j ∧ j < bp / 64 + 1 + (bp % 64 + n - 64) / 64 ∧
        j < m.words.length
    · rw [if_pos hj2, if_neg (by omega), if_pos hj2]
    · rw [if_neg hj2, word_setWord]
      by_cases hj3 : bp / 64 = j ∧ bp / 64 < m.words.length
      · rw [if_pos hj3, if_pos (by omega)]
      · rw [if_neg hj3, if_neg (by omega), if_neg (by omega), if_neg (by omega)]

end Auto

namespace Auto

theorem bit_set_bits (m : Bitmap) (bp n i : Nat) (hi : i < m.size_in_bits) :
    (m.set_bits bp n).bit i = if bp ≤ i ∧ i < bp + n then 1 else m.bit i := by
  have e1 : 64 * (bp / 64) + bp % 64 = bp := Nat.div_add_mod bp 64
  have e2 : 64 * (i / 64) + i % 64 = i := Nat.div_add_mod i 64
  have h5 : bp % 64 < 64 := Nat.mod_lt _ (by omega)
  have h6 : i % 64 < 64 := Nat.mod_lt _ (by omega)
  have hjlen : i / 64 < m.words.length := by
    unfold Bitmap.size_in_bits bits_per_word at hi
    omega
  simp only [Bitmap.set_bits, index_eq_div, shift_eq_mod, bits_per_word]
  by_cases hspan : 64 < bp % 64 + n
  · rw [if_pos hspan, bit_eq_toNat, index_eq_div, shift_eq_mod,
      word_set_bits_large _ _ _ _ hspan]
    have hF : 64 * ((bp % 64 + n - 64) / 64) + (bp % 64 + n - 64) % 64
        = bp % 64 + n - 64 := Nat.div_add_mod _ 64
    have hRlt : (bp % 64 + n - 64) % 64 < 64 := Nat.mod_lt _ (by omega)
    by_cases c1 : i / 64 = bp / 64
    · rw [if_pos ⟨c1, by omega⟩, Nat.testBit_or,
        testBit_trunc_shiftLeft_all_ones _ _ h6]
      by_cases csh : bp % 64 ≤ i % 64
      · rw [if_pos (by omega)]
        simp [csh]
      · rw [if_neg (by omega), bit_eq_toNat, index_eq_div, shift_eq_mod, c1]
        simp [csh]
    · rw [if_neg (fun hc => c1 hc.1)]
      by_cases c2 : bp / 64 + 1 ≤ i / 64 ∧ i / 64 < bp / 64 + 1 + (bp % 64 + n - 64) / 64
      · rw [if_pos ⟨c2.1, c2.2, hjlen⟩, testBit_all_ones, if_pos (by omega)]
        simp [h6]
      · rw [if_neg (fun hc => c2 ⟨hc.1, hc.2.1⟩)]
        by_cases c3 : i / 64 = bp / 64 + 1 + (bp % 64 + n - 64) / 64 ∧
            0 < (bp % 64 + n - 64) % 64
        · rw [if_pos ⟨c3.1, c3.2, hjlen⟩, Nat.testBit_or, testBit_mask]
          by_cases cr : i % 64 < (bp % 64 + n - 64) % 64
          · rw [if_pos (by omega)]
            simp [cr]
          · rw [if_neg (by omega), bit_eq_toNat, index_eq_div, shift_eq_mod, c3.1]
            simp [cr]
        · rw [if_neg (fun hc => c3 ⟨hc.1, hc.2.1⟩), if_neg (by omega),
            bit_eq_toNat, index_eq_div, shift_eq_mod]
  · rw [if_neg hspan, bit_eq_toNat, index_eq_div, shift_eq_mod, word_setWord]
    by_cases c1 : bp / 64 = i / 64 ∧ bp / 64 < m.words.length
    · rw [if_pos c1, Nat.testBit_or]
      by_cases cin : bp % 64 ≤ i % 64 ∧ i % 64 - bp % 64 < n
      · rw [if_pos (by omega)]
        have hmb : ((mask n <<< (bp % 64)).testBit (i % 64)) = true := by
          rw [Nat.testBit_shiftLeft, testBit_mask]
          simp [ge_iff_le, cin.1, cin.2]
        simp [hmb]
      · rw [if_neg (by omega)]
        have hmb : ((mask n <<< (bp % 64)).testBit (i % 64)) = false := by
          rw [Nat.testBit_shiftLeft, testBit_mask]
          by_cases hle : bp % 64 ≤ i % 64
          · simp [ge_iff_le, hle]
            omega
          · simp [ge_iff_le, hle]
        rw [bit_eq_toNat, index_eq_div, shift_eq_mod, ← c1.1]
        simp [hmb]
    · rw [if_neg c1, if_neg (by omega), bit_eq_toNat, index_eq_div, shift_eq_mod]

end Auto

namespace Auto

theorem testBit_compl64_shiftLeft_all_ones (sh r : Nat) (hr : r < 64) :
    (compl64 (all_ones <<< sh)).testBit r = !decide (sh ≤ r) := by
  rw [testBit_compl64 _ _ hr, Nat.testBit_mod_two_pow, Nat.testBit_shiftLeft,
    testBit_all_ones]
  by_cases h : sh ≤ r
  · simp [h, ge_iff_le, hr, show r - sh < 64 by omega]
  · simp [h, ge_iff_le, hr]

theorem testBit_compl64_mask (R r : Nat) (hr : r < 64) :
    (compl64 (mask R)).testBit r = !decide (r < R) := by
  rw [testBit_compl64 _ _ hr, Nat.testBit_mod_two_pow, testBit_mask]
  simp [hr]

theorem bit_clear_bits (m : Bitmap) (bp n i : Nat) (hi : i < m.size_in_bits) :
    (m.clear_bits bp n).bit i = if bp ≤ i ∧ i < bp + n then 0 else m.bit i := by
  have e1 : 64 * (bp / 64) + bp % 64 = bp := Nat.div_add_mod bp 64
  have e2 : 64 * (i / 64) + i % 64 = i := Nat.div_add_mod i 64
  have h5 : bp % 64 < 64 := Nat.mod_lt _ (by omega)
  have h6 : i % 64 < 64 := Nat.mod_lt _ (by omega)
  have hjlen : i / 64 < m.words.length := by
    unfold Bitmap.size_in_bits bits_per_word at hi
    omega
  simp only [Bitmap.clear_bits, index_eq_div, shift_eq_mod, bits_per_word]
  by_cases hspan : 64 < bp % 64 + n
  · rw [if_pos hspan, bit_eq_toNat, index_eq_div, shift_eq_mod,
      word_clear_bits_large _ _ _ _ hspan]
    have hF : 64 * ((bp % 64 + n - 64) / 64) + (bp % 64 + n - 64) % 64
        = bp % 64 + n - 64 := Nat.div_add_mod _ 64
    have hRlt : (bp % 64 + n - 64) % 64 < 64 := Nat.mod_lt _ (by omega)
    by_cases c1 : i / 64 = bp / 64
    · rw [if_pos ⟨c1, by omega⟩, Nat.testBit_and,
        testBit_compl64_shiftLeft_all_ones _ _ h6]
      by_cases csh : bp % 64 ≤ i % 64
      · rw [if_pos (by omega)]
        simp [csh]
      · rw [if_neg (by omega), bit_eq_toNat, index_eq_div, shift_eq_mod, c1]
        simp [csh]
    · rw [if_neg (fun hc => c1 hc.1)]
      by_cases c2 : bp / 64 + 1 ≤ i / 64 ∧ i / 64 < bp / 64 + 1 + (bp % 64 + n - 64) / 64
      · rw [if_pos ⟨c2.1, c2.2, hjlen⟩, if_pos (by omega)]
        simp
      · rw [if_neg (fun hc => c2 ⟨hc.1, hc.2.1⟩)]
        by_cases c3 : i / 64 = bp / 64 + 1 + (bp % 64 + n - 64) / 64 ∧
            0 < (bp % 64 + n - 64) % 64
        · rw [if_pos ⟨c3.1, c3.2, hjlen⟩, Nat.testBit_and,
            testBit_compl64_mask _ _ h6]
          by_cases cr : i % 64 < (bp % 64 + n - 64) % 64
          · rw [if_pos (by omega)]
            simp [cr]
          · rw [if_neg (by omega), bit_eq_toNat, index_eq_div, shift_eq_mod, c3.1]
            simp [cr]
        · rw [if_neg (fun hc => c3 ⟨hc.1, hc.2.1⟩), if_neg (by omega),
            bit_eq_toNat, index_eq_div, shift_eq_mod]
  · rw [if_neg hspan, bit_eq_toNat, index_eq_div, shift_eq_mod, word_setWord]
    by_cases c1 : bp / 64 = i / 64 ∧ bp / 64 < m.words.length
    · rw [if_pos c1, Nat.testBit_and]
      by_cases cin : bp % 64 ≤ i % 64 ∧ i % 64 - bp % 64 < n
      · rw [if_pos (by omega)]
        have hmb : ((compl64 (mask n <<< (bp % 64))).testBit (i % 64)) = false := by
          rw [testBit_compl64 _ _ h6, Nat.testBit_mod_two_pow,
            Nat.testBit_shiftLeft, testBit_mask]
          simp [ge_iff_le, cin.1, cin.2, h6]
        simp [hmb]
      · rw [if_neg (by omega)]
        have hmb : ((compl64 (mask n <<< (bp % 64))).testBit (i % 64)) = true := by
          rw [testBit_compl64 _ _ h6, Nat.testBit_mod_two_pow,
            Nat.testBit_shiftLeft, testBit_mask]
          by_cases hle : bp % 64 ≤ i % 64
          · simp [ge_iff_le, hle, h6]
            omega
          · simp [ge_iff_le, hle, h6]
        rw [bit_eq_toNat, index_eq_div, shift_eq_mod, ← c1.1]
        simp [hmb]
    · rw [if_neg c1, if_neg (by omega), bit_eq_toNat, index_eq_div, shift_eq_mod]

end Auto

namespace Auto

/-- C5: for every bitmap and every `bp, k` with `bp + k` within the
vector and every in-range position `i`: after `set_bits(bp,k)` the bit at
`i` reads 1 if `i` lies in `[bp, bp+k)` and its prior value otherwise;
dually, after `clear_bits(bp,k)` it reads 0 inside the run and its prior
value outside.  Runs may span several words at arbitrary alignment. -/
theorem set_clear_bits_frame (m : Bitmap) (bp k i : Nat)
    (hk : bp + k ≤ m.size_in_bits) (hI : i < m.size_in_bits) :
    (m.set_bits bp k).bit i = (if bp ≤ i ∧ i < bp + k then 1 else m.bit i) ∧
    (m.clear_bits bp k).bit i = (if bp ≤ i ∧ i < bp + k then 0 else m.bit i) :=
  ⟨bit_set_bits m bp k i hI, bit_clear_bits m bp k i hI⟩

/-- Witness for `set_clear_bits_frame`: a two-word bitmap with words 5 and
7, a run of 10 bits starting at 60 (spanning the word boundary), read at
position 63 (inside the run). -/
theorem set_clear_bits_frame_witness :
    (60 + 10 ≤ (Bitmap.mk [5, 7]).size_in_bits ∧
     63 < (Bitmap.mk [5, 7]).size_in_bits) ∧
    ((Bitmap.mk [5, 7]).set_bits 60 10).bit 63 =
      (if 60 ≤ 63 ∧ 63 < 60 + 10 then 1 else (Bitmap.mk [5, 7]).bit 63) ∧
    ((Bitmap.mk [5, 7]).clear_bits 60 10).bit 63 =
      (if 60 ≤ 63 ∧ 63 < 60 + 10 then 0 else (Bitmap.mk [5, 7]).bit 63) :=
  ⟨⟨by decide, by decide⟩,
   set_clear_bits_frame ⟨[5, 7]⟩ 60 10 63 (by decide) (by decide)⟩

end Auto

namespace Auto

theorem word_lt_of_WF (m : Bitmap) (hwf : m.WF) (j : Nat) :
    m.word j < 2 ^ 64 := by
  unfold Bitmap.word
  rw [List.getD_eq_getElem?_getD]
  by_cases hj : j < m.words.length
  · rw [List.getElem?_eq_getElem hj]
    exact hwf _ (List.getElem_mem hj)
  · rw [List.getElem?_eq_none (by omega)]
    exact Nat.pos_pow_of_pos _ (by omega)

theorem testBit_false_of_ge (w t : Nat) (hlt : w < 2 ^ 64) (ht : 64 ≤ t) :
    w.testBit t = false :=
  Nat.testBit_lt_two_pow (lt_of_lt_of_le hlt (Nat.pow_le_pow_right (by omega) ht))

theorem ctzAux_spec (w : Nat) : ∀ (fuel i : Nat),
    (∀ j, i ≤ j → j < ctzAux w fuel i → w.testBit j = false) ∧
    i ≤ ctzAux w fuel i ∧ ctzAux w fuel i ≤ i + fuel ∧
    (ctzAux w fuel i < i + fuel → w.testBit (ctzAux w fuel i) = true) := by
  intro fuel
  induction fuel with
  | zero =>
    intro i
    rw [ctzAux]
    exact ⟨fun j h1 h2 => by omega, Nat.le_refl i, by omega, fun h => by omega⟩
  | succ fuel ih =>
    intro i
    rw [ctzAux]
    by_cases hb : w.testBit i
    · rw [if_pos hb]
      exact ⟨fun j h1 h2 => by omega, Nat.le_refl i, by omega, fun _ => hb⟩
    · rw [if_neg hb]
      obtain ⟨ih1, ih2, ih3, ih4⟩ := ih (i + 1)
      refine ⟨fun j h1 h2 => ?_, by omega, by omega, fun h => ih4 (by omega)⟩
      by_cases hj : j = i
      · subst hj
        simpa using hb
      · exact ih1 j (by omega) h2

theorem ctz_spec (w : Nat) (hw : w ≠ 0) (hlt : w < 2 ^ 64) :
    count_trailing_zeros w < 64 ∧
    w.testBit (count_trailing_zeros w) = true ∧
    ∀ j, j < count_trailing_zeros w → w.testBit j = false := by
  obtain ⟨t, ht⟩ := Nat.ne_zero_implies_bit_true hw
  have ht64 : t < 64 := by
    by_contra hc
    rw [testBit_false_of_ge w t hlt (by omega)] at ht
    exact Bool.false_ne_true ht
  obtain ⟨h1, h2, h3, h4⟩ := ctzAux_spec w 64 0
  unfold count_trailing_zeros
  have hcl : ctzAux w 64 0 < 64 := by
    by_contra hc
    have : w.testBit t = false := h1 t (by omega) (by omega)
    rw [this] at ht
    exact Bool.false_ne_true ht
  exact ⟨hcl, h4 (by omega), fun j hj => h1 j (by omega) hj⟩

theorem ilog2Aux_spec (w : Nat) : ∀ i : Nat,
    (∀ j, ilog2Aux w i < j → j ≤ i → w.testBit j = false) ∧
    ilog2Aux w i ≤ i ∧
    (ilog2Aux w i ≠ 0 → w.testBit (ilog2Aux w i) = true) := by
  intro i
  induction i with
  | zero =>
    rw [ilog2Aux]
    exact ⟨fun j h1 h2 => by omega, Nat.le_refl 0, fun h => absurd rfl h⟩
  | succ i ih =>
    rw [ilog2Aux]
    by_cases hb : w.testBit (i + 1)
    · rw [if_pos hb]
      exact ⟨fun j h1 h2 => by omega, Nat.le_refl _, fun _ => hb⟩
    · rw [if_neg hb]
      obtain ⟨ih1, ih2, ih3⟩ := ih
      refine ⟨fun j h1 h2 => ?_, by omega, ih3⟩
      by_cases hj : j = i + 1
      · subst hj
        simpa using hb
      · exact ih1 j h1 (by omega)

theorem ilog2_spec (w : Nat) (hw : w ≠ 0) (hlt : w < 2 ^ 64) :
    w.testBit (ilog2 w) = true ∧
    ∀ j, ilog2 w < j → w.testBit j = false := by
  obtain ⟨h1, h2, h3⟩ := ilog2Aux_spec w 63
  unfold ilog2
  have hhb : ∀ j, ilog2Aux w 63 < j → w.testBit j = false := by
    intro j hj
    by_cases hj64 : j ≤ 63
    · exact h1 j hj hj64
    · exact testBit_false_of_ge w j hlt (by omega)
  refine ⟨?_, hhb⟩
  by_cases h0 : ilog2Aux w 63 = 0
  · rw [h0]
    by_contra hc
    apply hw
    apply Nat.eq_of_testBit_eq
    intro j
    rw [Nat.zero_testBit]
    by_cases hj : j = 0
    · subst hj
      simpa using hc
    · exact hhb j (by omega)
  · exact h3 h0

theorem skipZeroWords_spec (m : Bitmap) : ∀ (fuel c : Nat),
    c ≤ m.skipZeroWords c fuel ∧ m.skipZeroWords c fuel ≤ c + fuel ∧
    (∀ j, c ≤ j → j < m.skipZeroWords c fuel → m.word j = 0) ∧
    (m.skipZeroWords c fuel < c + fuel → m.word (m.skipZeroWords c fuel) ≠ 0) := by
  intro fuel
  induction fuel with
  | zero =>
    intro c
    rw [Bitmap.skipZeroWords]
    exact ⟨Nat.le_refl c, by omega, fun j h1 h2 => by omega, fun h => by omega⟩
  | succ fuel ih =>
    intro c
    rw [Bitmap.skipZeroWords]
    by_cases hw : m.word c ≠ 0
    · rw [if_pos hw]
      exact ⟨Nat.le_refl c, by omega, fun j h1 h2 => by omega, fun _ => hw⟩
    · rw [if_neg hw]
      obtain ⟨ih1, ih2, ih3, ih4⟩ := ih (c + 1)
      refine ⟨by omega, by omega, fun j h1 h2 => ?_, fun h => ih4 (by omega)⟩
      by_cases hj : j = c
      · subst hj
        simpa using hw
      · exact ih3 j (by omega) h2

theorem skipBackZeroWords_spec (m : Bitmap) : ∀ c : Nat,
    (∀ j hj, m.skipBackZeroWords c = some j →
      j < c ∧ m.word j ≠ 0 ∧ (j < hj → hj < c → m.word hj = 0)) ∧
    (m.skipBackZeroWords c = none → ∀ t, t < c → m.word t = 0) := by
  intro c
  induction c with
  | zero =>
    rw [Bitmap.skipBackZeroWords]
    refine ⟨fun j hj h => ?_, fun _ t ht => by omega⟩
    cases h
  | succ c ih =>
    rw [Bitmap.skipBackZeroWords]
    by_cases hw : m.word c ≠ 0
    · rw [if_pos hw]
      refine ⟨fun j hj h => ?_, fun h => by cases h⟩
      have hj : j = c := by cases h; rfl
      subst hj
      exact ⟨by omega, hw, fun h1 h2 => by omega⟩
    · rw [if_neg hw]
      obtain ⟨ih1, ih2⟩ := ih
      refine ⟨fun j hj h => ?_, fun h t ht => ?_⟩
      · obtain ⟨g1, g2, g3⟩ := ih1 j hj h
        refine ⟨by omega, g2, fun h1 h2 => ?_⟩
        by_cases hjc : hj = c
        · subst hjc
          simpa using hw
        · exact g3 h1 (by omega)
      · by_cases htc : t = c
        · subst htc
          simpa using hw
        · exact ih2 h t (by omega)

end Auto

namespace Auto

/-- What the amended C2 says of a forward search result: either the
sentinel with no set bit at or after `bp`, or the least set position at
or after `bp`. -/
def NextSpec (m : Bitmap) (bp r : Nat) : Prop :=
  (r = not_found ∧ ∀ q, bp ≤ q → q < m.size_in_bits → m.bit q ≠ 1) ∨
  (bp ≤ r ∧ r < m.size_in_bits ∧ m.bit r = 1 ∧
    ∀ q, bp ≤ q → q < r → m.bit q ≠ 1)

/-- What the amended C2 says of the backward search result: either the
sentinel with no set bit strictly below `bp`, or the greatest set
position strictly below `bp`. -/
def PrevSpec (m : Bitmap) (bp r : Nat) : Prop :=
  (r = not_found ∧ ∀ q, q < bp → m.bit q ≠ 1) ∨
  (r < bp ∧ m.bit r = 1 ∧ ∀ q, r < q → q < bp → m.bit q ≠ 1)

theorem nextSpec_unique (m : Bitmap) (bp r1 r2 : Nat)
    (h1 : NextSpec m bp r1) (h2 : NextSpec m bp r2) : r1 = r2 := by
  rcases h1 with ⟨e1, a1⟩ | ⟨b1, s1, t1, m1⟩ <;>
    rcases h2 with ⟨e2, a2⟩ | ⟨b2, s2, t2, m2⟩
  · rw [e1, e2]
  · exact absurd t2 (a1 _ b2 s2)
  · exact absurd t1 (a2 _ b1 s1)
  · rcases Nat.lt_trichotomy r1 r2 with h | h | h
    · exact absurd t1 (m2 _ b1 h)
    · exact h
    · exact absurd t2 (m1 _ b2 h)

theorem prevSpec_unique (m : Bitmap) (bp r1 r2 : Nat)
    (h1 : PrevSpec m bp r1) (h2 : PrevSpec m bp r2) : r1 = r2 := by
  rcases h1 with ⟨e1, a1⟩ | ⟨b1, t1, m1⟩ <;>
    rcases h2 with ⟨e2, a2⟩ | ⟨b2, t2, m2⟩
  · rw [e1, e2]
  · exact absurd t2 (a1 _ b2)
  · exact absurd t1 (a2 _ b1)
  · rcases Nat.lt_trichotomy r1 r2 with h | h | h
    · exact absurd t2 (m1 _ h b2)
    · exact h
    · exact absurd t1 (m2 _ h b1)

theorem findBitFrom_spec (m : Bitmap) : ∀ (fuel p : Nat),
    (m.findBitFrom p fuel = not_found ∧
      ∀ q, p ≤ q → q < p + fuel → m.bit q ≠ 1) ∨
    (p ≤ m.findBitFrom p fuel ∧ m.findBitFrom p fuel < p + fuel ∧
      m.bit (m.findBitFrom p fuel) = 1 ∧
      ∀ q, p ≤ q → q < m.findBitFrom p fuel → m.bit q ≠ 1) := by
  intro fuel
  induction fuel with
  | zero =>
    intro p
    rw [Bitmap.findBitFrom]
    exact Or.inl ⟨rfl, fun q h1 h2 => by omega⟩
  | succ fuel ih =>
    intro p
    rw [Bitmap.findBitFrom]
    by_cases hb : m.bit p = 1
    · rw [if_pos hb]
      exact Or.inr ⟨Nat.le_refl p, by omega, hb, fun q h1 h2 => by omega⟩
    · rw [if_neg hb]
      rcases ih (p + 1) with ⟨e1, a1⟩ | ⟨b1, s1, t1, m1⟩
      · refine Or.inl ⟨e1, fun q h1 h2 => ?_⟩
        by_cases hq : q = p
        · subst hq; exact hb
        · exact a1 q (by omega) (by omega)
      · refine Or.inr ⟨by omega, by omega, t1, fun q h1 h2 => ?_⟩
        by_cases hq : q = p
        · subst hq; exact hb
        · exact m1 q (by omega) h2

theorem naiveNext_spec (m : Bitmap) (bp : Nat) :
    NextSpec m bp (m.naiveNext bp) := by
  unfold Bitmap.naiveNext NextSpec
  rcases findBitFrom_spec m (m.size_in_bits - bp) bp with ⟨e1, a1⟩ | ⟨b1, s1, t1, m1⟩
  · exact Or.inl ⟨e1, fun q h1 h2 => a1 q h1 (by omega)⟩
  · exact Or.inr ⟨b1, by omega, t1, m1⟩

theorem findBitBelow_spec (m : Bitmap) : ∀ bp : Nat,
    PrevSpec m bp (m.findBitBelow bp) := by
  intro bp
  induction bp with
  | zero =>
    rw [Bitmap.findBitBelow]
    exact Or.inl ⟨rfl, fun q h => by omega⟩
  | succ p ih =>
    rw [Bitmap.findBitBelow]
    by_cases hb : m.bit p = 1
    · rw [if_pos hb]
      exact Or.inr ⟨by omega, hb, fun q h1 h2 => by omega⟩
    · rw [if_neg hb]
      rcases ih with ⟨e1, a1⟩ | ⟨b1, t1, m1⟩
      · refine Or.inl ⟨e1, fun q h1 => ?_⟩
        by_cases hq : q = p
        · subst hq; exact hb
        · exact a1 q (by omega)
      · refine Or.inr ⟨by omega, t1, fun q h1 h2 => ?_⟩
        by_cases hq : q = p
        · subst hq; exact hb
        · exact m1 q h1 (by omega)

theorem testBit_maskAbove (w0 sh t : Nat) (ht : t < 64) :
    (if sh ≠ 0 then w0 &&& compl64 (mask sh) else w0).testBit t
      = (w0.testBit t && decide (sh ≤ t)) := by
  by_cases hsh : sh ≠ 0
  · rw [if_pos hsh, Nat.testBit_and, testBit_compl64_mask _ _ ht]
    by_cases h : sh ≤ t
    · simp [h, show ¬ t < sh by omega]
    · simp [h, show t < sh by omega]
  · rw [if_neg hsh]
    have h0 : sh = 0 := by omega
    subst h0
    simp

theorem testBit_maskBelow (w0 sh t : Nat) :
    (if sh ≠ 0 then w0 &&& mask sh else 0).testBit t
      = (w0.testBit t && decide (t < sh)) := by
  by_cases hsh : sh ≠ 0
  · rw [if_pos hsh, Nat.testBit_and, testBit_mask]
  · rw [if_neg hsh]
    have h0 : sh = 0 := by omega
    subst h0
    simp

end Auto

namespace Auto

theorem bit_ne_one_of_testBit_false (m : Bitmap) (q : Nat)
    (h : (m.word (q / 64)).testBit (q % 64) = false) : m.bit q ≠ 1 := by
  rw [Ne, bit_eq_one_iff, h]
  simp

theorem bit_ne_one_of_word_zero (m : Bitmap) (q : Nat)
    (h : m.word (q / 64) = 0) : m.bit q ≠ 1 :=
  bit_ne_one_of_testBit_false m q (by rw [h, Nat.zero_testBit])

theorem next_set_spec (m : Bitmap) (bp : Nat) (hwf : m.WF) :
    NextSpec m bp (m.next_set bp) := by
  have e1 : 64 * (bp / 64) + bp % 64 = bp := Nat.div_add_mod bp 64
  have h5 : bp % 64 < 64 := Nat.mod_lt _ (by omega)
  simp only [Bitmap.next_set, index_eq_div, shift_eq_mod, bits_per_word,
    Bitmap.skip_all_zeros]
  by_cases hc : bp / 64 ≥ m.words.length
  · rw [if_pos hc]
    refine Or.inl ⟨rfl, fun q hq1 hq2 => ?_⟩
    have hq3 : 64 * (q / 64) + q % 64 = q := Nat.div_add_mod q 64
    have hq4 : q % 64 < 64 := Nat.mod_lt _ (by omega)
    have hd : bp / 64 ≤ q / 64 := Nat.div_le_div_right hq1
    unfold Bitmap.size_in_bits bits_per_word at hq2
    exfalso
    omega
  · rw [if_neg hc]
    have hWt : ∀ t, t < 64 →
        (if bp % 64 ≠ 0 then m.word (bp / 64) &&& compl64 (mask (bp % 64))
         else m.word (bp / 64)).testBit t
        = ((m.word (bp / 64)).testBit t && decide (bp % 64 ≤ t)) :=
      fun t ht => testBit_maskAbove _ _ _ ht
    have hWlt : (if bp % 64 ≠ 0 then m.word (bp / 64) &&& compl64 (mask (bp % 64))
        else m.word (bp / 64)) < 2 ^ 64 := by
      by_cases hsh : bp % 64 ≠ 0
      · rw [if_pos hsh]
        exact lt_of_le_of_lt Nat.and_le_left (word_lt_of_WF m hwf _)
      · rw [if_neg hsh]
        exact word_lt_of_WF m hwf _
    by_cases hz : (if bp % 64 ≠ 0 then m.word (bp / 64) &&& compl64 (mask (bp % 64))
        else m.word (bp / 64)) = 0
    · rw [if_pos hz]
      have hwz : ∀ t, bp % 64 ≤ t → t < 64 → (m.word (bp / 64)).testBit t = false := by
        intro t h1 h2
        have h := hWt t h2
        rw [hz, Nat.zero_testBit] at h
        simp [h1] at h
        exact h
      obtain ⟨hs1, hs2, hs3, hs4⟩ :=
        skipZeroWords_spec m (m.words.length - (bp / 64 + 1)) (bp / 64 + 1)
      by_cases hce : m.skipZeroWords (bp / 64 + 1)
          (m.words.length - (bp / 64 + 1)) < m.words.length
      · rw [if_pos hce, if_pos hce]
        have hwc : m.word (m.skipZeroWords (bp / 64 + 1)
            (m.words.length - (bp / 64 + 1))) ≠ 0 := hs4 (by omega)
        obtain ⟨hc1, hc2, hc3⟩ := ctz_spec _ hwc (word_lt_of_WF m hwf _)
        refine Or.inr ⟨by omega, ?_, ?_, ?_⟩
        · unfold Bitmap.size_in_bits bits_per_word
          omega
        · rw [bit_eq_one_iff]
          have hdm := Nat.div_add_mod (64 * m.skipZeroWords (bp / 64 + 1)
            (m.words.length - (bp / 64 + 1)) + count_trailing_zeros
              (m.word (m.skipZeroWords (bp / 64 + 1)
                (m.words.length - (bp / 64 + 1))))) 64
          have hmlt : (64 * m.skipZeroWords (bp / 64 + 1)
              (m.words.length - (bp / 64 + 1)) + count_trailing_zeros
                (m.word (m.skipZeroWords (bp / 64 + 1)
                  (m.words.length - (bp / 64 + 1))))) % 64 < 64 :=
            Nat.mod_lt _ (by omega)
          have hdiv : (64 * m.skipZeroWords (bp / 64 + 1)
              (m.words.length - (bp / 64 + 1)) + count_trailing_zeros
                (m.word (m.skipZeroWords (bp / 64 + 1)
                  (m.words.length - (bp / 64 + 1))))) / 64
              = m.skipZeroWords (bp / 64 + 1) (m.words.length - (bp / 64 + 1)) := by
            omega
          have hmod : (64 * m.skipZeroWords (bp / 64 + 1)
              (m.words.length - (bp / 64 + 1)) + count_trailing_zeros
                (m.word (m.skipZeroWords (bp / 64 + 1)
                  (m.words.length - (bp / 64 + 1))))) % 64
              = count_trailing_zeros (m.word (m.skipZeroWords (bp / 64 + 1)
                  (m.words.length - (bp / 64 + 1)))) := by
            omega
          rw [hdiv, hmod]
          exact hc2
        · intro q hq1 hq2
          have hq3 : 64 * (q / 64) + q % 64 = q := Nat.div_add_mod q 64
          have hq4 : q % 64 < 64 := Nat.mod_lt _ (by omega)
          have hqd : bp / 64 ≤ q / 64 := Nat.div_le_div_right hq1
          by_cases hqc : q / 64 = bp / 64
          · refine bit_ne_one_of_testBit_false m q ?_
            rw [hqc]
            exact hwz _ (by omega) hq4
          · by_cases hqs : q / 64 < m.skipZeroWords (bp / 64 + 1)
                (m.words.length - (bp / 64 + 1))
            · exact bit_ne_one_of_word_zero m q (hs3 _ (by omega) hqs)
            · have hqe : q / 64 = m.skipZeroWords (bp / 64 + 1)
                  (m.words.length - (bp / 64 + 1)) := by omega
              refine bit_ne_one_of_testBit_false m q ?_
              rw [hqe]
              exact hc3 _ (by omega)
      · rw [if_neg hce]
        refine Or.inl ⟨rfl, fun q hq1 hq2 => ?_⟩
        have hq3 : 64 * (q / 64) + q % 64 = q := Nat.div_add_mod q 64
        have hq4 : q % 64 < 64 := Nat.mod_lt _ (by omega)
        have hqd : bp / 64 ≤ q / 64 := Nat.div_le_div_right hq1
        unfold Bitmap.size_in_bits bits_per_word at hq2
        by_cases hqc : q / 64 = bp / 64
        · refine bit_ne_one_of_testBit_false m q ?_
          rw [hqc]
          exact hwz _ (by omega) hq4
        · exact bit_ne_one_of_word_zero m q (hs3 _ (by omega) (by omega))
    · rw [if_neg hz]
      obtain ⟨hc1, hc2, hc3⟩ := ctz_spec _ hz hWlt
      have hsle : bp % 64 ≤ count_trailing_zeros
          (if bp % 64 ≠ 0 then m.word (bp / 64) &&& compl64 (mask (bp % 64))
           else m.word (bp / 64)) := by
        have h := hWt _ hc1
        rw [hc2] at h
        have h2 := h.symm
        rw [Bool.and_eq_true] at h2
        simpa using h2.2
      refine Or.inr ⟨by omega, ?_, ?_, ?_⟩
      · unfold Bitmap.size_in_bits bits_per_word
        omega
      · rw [bit_eq_one_iff]
        have hdiv : (64 * (bp / 64) + count_trailing_zeros
            (if bp % 64 ≠ 0 then m.word (bp / 64) &&& compl64 (mask (bp % 64))
             else m.word (bp / 64))) / 64 = bp / 64 := by
          have := Nat.div_add_mod (64 * (bp / 64) + count_trailing_zeros
            (if bp % 64 ≠ 0 then m.word (bp / 64) &&& compl64 (mask (bp % 64))
             else m.word (bp / 64))) 64
          have hmlt := Nat.mod_lt (64 * (bp / 64) + count_trailing_zeros
            (if bp % 64 ≠ 0 then m.word (bp / 64) &&& compl64 (mask (bp % 64))
             else m.word (bp / 64))) (y := 64) (by omega)
          omega
        have hmod : (64 * (bp / 64) + count_trailing_zeros
            (if bp % 64 ≠ 0 then m.word (bp / 64) &&& compl64 (mask (bp % 64))
             else m.word (bp / 64))) % 64 = count_trailing_zeros
            (if bp % 64 ≠ 0 then m.word (bp / 64) &&& compl64 (mask (bp % 64))
             else m.word (bp / 64)) := by
          have := Nat.div_add_mod (64 * (bp / 64) + count_trailing_zeros
            (if bp % 64 ≠ 0 then m.word (bp / 64) &&& compl64 (mask (bp % 64))
             else m.word (bp / 64))) 64
          have hmlt := Nat.mod_lt (64 * (bp / 64) + count_trailing_zeros
            (if bp % 64 ≠ 0 then m.word (bp / 64) &&& compl64 (mask (bp % 64))
             else m.word (bp / 64))) (y := 64) (by omega)
          omega
        rw [hdiv, hmod]
        have h := hWt _ hc1
        rw [hc2] at h
        have h2 := h.symm
        rw [Bool.and_eq_true] at h2
        exact h2.1
      · intro q hq1 hq2
        have hq3 : 64 * (q / 64) + q % 64 = q := Nat.div_add_mod q 64
        have hq4 : q % 64 < 64 := Nat.mod_lt _ (by omega)
        have hqd : bp / 64 ≤ q / 64 := Nat.div_le_div_right hq1
        have hqc : q / 64 = bp / 64 := by omega
        refine bit_ne_one_of_testBit_false m q ?_
        have h := hWt (q % 64) hq4
        rw [hc3 _ (by omega)] at h
        have h2 := h.symm
        rw [Bool.and_eq_false_iff] at h2
        rcases h2 with h2 | h2
        · rw [hqc]
          exact h2
        · exfalso
          rw [decide_eq_false_iff_not] at h2
          omega

end Auto

namespace Auto

theorem ilog2_le (w : Nat) : ilog2 w ≤ 63 :=
  (ilog2Aux_spec w 63).2.1

theorem previous_set_spec (m : Bitmap) (bp : Nat) (hwf : m.WF) :
    PrevSpec m bp (m.previous_set bp) := by
  have e1 : 64 * (bp / 64) + bp % 64 = bp := Nat.div_add_mod bp 64
  have h5 : bp % 64 < 64 := Nat.mod_lt _ (by omega)
  simp only [Bitmap.previous_set, index_eq_div, shift_eq_mod, bits_per_word]
  have hWt : ∀ t, (if bp % 64 ≠ 0 then m.word (bp / 64) &&& mask (bp % 64)
      else 0).testBit t = ((m.word (bp / 64)).testBit t && decide (t < bp % 64)) :=
    fun t => testBit_maskBelow _ _ t
  have hWlt : (if bp % 64 ≠ 0 then m.word (bp / 64) &&& mask (bp % 64)
      else 0) < 2 ^ 64 := by
    by_cases hsh : bp % 64 ≠ 0
    · rw [if_pos hsh]
      exact lt_of_le_of_lt Nat.and_le_left (word_lt_of_WF m hwf _)
    · rw [if_neg hsh]
      exact Nat.pos_pow_of_pos _ (by omega)
  by_cases hz : (if bp % 64 ≠ 0 then m.word (bp / 64) &&& mask (bp % 64)
      else 0) = 0
  · rw [if_pos hz]
    have hwz : ∀ t, t < bp % 64 → (m.word (bp / 64)).testBit t = false := by
      intro t ht
      have h := hWt t
      rw [hz, Nat.zero_testBit] at h
      simp [ht] at h
      exact h
    obtain ⟨hb1, hb2⟩ := skipBackZeroWords_spec m (bp / 64)
    cases hsb : m.skipBackZeroWords (bp / 64) with
    | none =>
      simp only [hsb]
      refine Or.inl ⟨rfl, fun q hq => ?_⟩
      have hq3 : 64 * (q / 64) + q % 64 = q := Nat.div_add_mod q 64
      have hq4 : q % 64 < 64 := Nat.mod_lt _ (by omega)
      have hqd : q / 64 ≤ bp / 64 := Nat.div_le_div_right (by omega)
      by_cases hqc : q / 64 = bp / 64
      · refine bit_ne_one_of_testBit_false m q ?_
        rw [hqc]
        exact hwz _ (by omega)
      · exact bit_ne_one_of_word_zero m q (hb2 hsb _ (by omega))
    | some c =>
      simp only [hsb]
      have hlt : c < bp / 64 := (hb1 c 0 hsb).1
      have hne : m.word c ≠ 0 := (hb1 c 0 hsb).2.1
      have hzero : ∀ t, c < t → t < bp / 64 → m.word t = 0 :=
        fun t h1 h2 => (hb1 c t hsb).2.2 h1 h2
      obtain ⟨hl2, hl3⟩ := ilog2_spec (m.word c) hne (word_lt_of_WF m hwf c)
      have hl63 : ilog2 (m.word c) ≤ 63 := ilog2_le _
      refine Or.inr ⟨by omega, ?_, ?_⟩
      · rw [bit_eq_one_iff]
        have hdm := Nat.div_add_mod (64 * c + ilog2 (m.word c)) 64
        have hmlt : (64 * c + ilog2 (m.word c)) % 64 < 64 := Nat.mod_lt _ (by omega)
        have hdiv : (64 * c + ilog2 (m.word c)) / 64 = c := by omega
        have hmod : (64 * c + ilog2 (m.word c)) % 64 = ilog2 (m.word c) := by omega
        rw [hdiv, hmod]
        exact hl2
      · intro q hq1 hq2
        have hq3 : 64 * (q / 64) + q % 64 = q := Nat.div_add_mod q 64
        have hq4 : q % 64 < 64 := Nat.mod_lt _ (by omega)
        have hqd : q / 64 ≤ bp / 64 := Nat.div_le_div_right (by omega)
        by_cases hqc : q / 64 = bp / 64
        · refine bit_ne_one_of_testBit_false m q ?_
          rw [hqc]
          exact hwz _ (by omega)
        · by_cases hqe : q / 64 = c
          · refine bit_ne_one_of_testBit_false m q ?_
            rw [hqe]
            exact hl3 _ (by omega)
          · exact bit_ne_one_of_word_zero m q (hzero _ (by omega) (by omega))
  · rw [if_neg hz]
    obtain ⟨hl2, hl3⟩ := ilog2_spec _ hz hWlt
    have hl63 : ilog2 (if bp % 64 ≠ 0 then m.word (bp / 64) &&& mask (bp % 64)
        else 0) ≤ 63 := ilog2_le _
    have hlsh : ilog2 (if bp % 64 ≠ 0 then m.word (bp / 64) &&& mask (bp % 64)
        else 0) < bp % 64 := by
      have h := hWt (ilog2 (if bp % 64 ≠ 0 then m.word (bp / 64) &&& mask (bp % 64)
        else 0))
      rw [hl2] at h
      have h2 := h.symm
      rw [Bool.and_eq_true] at h2
      simpa using h2.2
    have hbitw : (m.word (bp / 64)).testBit (ilog2 (if bp % 64 ≠ 0 then
        m.word (bp / 64) &&& mask (bp % 64) else 0)) = true := by
      have h := hWt (ilog2 (if bp % 64 ≠ 0 then m.word (bp / 64) &&& mask (bp % 64)
        else 0))
      rw [hl2] at h
      have h2 := h.symm
      rw [Bool.and_eq_true] at h2
      exact h2.1
    refine Or.inr ⟨by omega, ?_, ?_⟩
    · rw [bit_eq_one_iff]
      have hdm := Nat.div_add_mod (64 * (bp / 64) + ilog2 (if bp % 64 ≠ 0 then
        m.word (bp / 64) &&& mask (bp % 64) else 0)) 64
      have hmlt : (64 * (bp / 64) + ilog2 (if bp % 64 ≠ 0 then
          m.word (bp / 64) &&& mask (bp % 64) else 0)) % 64 < 64 :=
        Nat.mod_lt _ (by omega)
      have hdiv : (64 * (bp / 64) + ilog2 (if bp % 64 ≠ 0 then
          m.word (bp / 64) &&& mask (bp % 64) else 0)) / 64 = bp / 64 := by omega
      have hmod : (64 * (bp / 64) + ilog2 (if bp % 64 ≠ 0 then
          m.word (bp / 64) &&& mask (bp % 64) else 0)) % 64
          = ilog2 (if bp % 64 ≠ 0 then m.word (bp / 64) &&& mask (bp % 64)
            else 0) := by omega
      rw [hdiv, hmod]
      exact hbitw
    · intro q hq1 hq2
      have hq3 : 64 * (q / 64) + q % 64 = q := Nat.div_add_mod q 64
      have hq4 : q % 64 < 64 := Nat.mod_lt _ (by omega)
      have hqd : q / 64 ≤ bp / 64 := Nat.div_le_div_right (by omega)
      have hqc : q / 64 = bp / 64 := by omega
      refine bit_ne_one_of_testBit_false m q ?_
      have h := hWt (q % 64)
      rw [hl3 _ (by omega)] at h
      have h2 := h.symm
      rw [Bool.and_eq_false_iff] at h2
      rcases h2 with h2 | h2
      · rw [hqc]
        exact h2
      · exfalso
        rw [decide_eq_false_iff_not] at h2
        omega

end Auto

namespace Auto

/-- C2 as amended: for every well-formed bitmap and every bit position,
`next_set(bp)` agrees with the naive forward scan (the smallest position
at or after `bp` whose bit is 1, `not_found` when none exists), and
`previous_set(bp)` agrees with the naive backward scan over the positions
strictly below `bp` (the largest set position strictly less than `bp`,
`not_found` when none exists) — strictly below, not "at or before",
because the code masks its first word with `mask(shift(bp))`, which
excludes bit `bp` itself. -/
theorem next_prev_agree_with_linear_scan (m : Bitmap) (bp : Nat)
    (hwf : m.WF) :
    m.next_set bp = m.naiveNext bp ∧ m.previous_set bp = m.findBitBelow bp :=
  ⟨nextSpec_unique m bp _ _ (next_set_spec m bp hwf) (naiveNext_spec m bp),
   prevSpec_unique m bp _ _ (previous_set_spec m bp hwf) (findBitBelow_spec m bp)⟩

/-- Witness for `next_prev_agree_with_linear_scan` on the two-word bitmap
with words 32 and 1024 at position 70. -/
theorem next_prev_agree_with_linear_scan_witness :
    (Bitmap.mk [32, 1024]).WF ∧
    ((Bitmap.mk [32, 1024]).next_set 70 = (Bitmap.mk [32, 1024]).naiveNext 70 ∧
     (Bitmap.mk [32, 1024]).previous_set 70 = (Bitmap.mk [32, 1024]).findBitBelow 70) :=
  ⟨by decide, next_prev_agree_with_linear_scan ⟨[32, 1024]⟩ 70 (by decide)⟩

end Auto

namespace Auto

/-- Bitmap.h `AtomicCursor`: the enumerator state — current bit index,
the offset subtracted from returned values, the scan bound, the word of
bits copied out of the bitmap, and how many of them are valid. -/
structure Bitmap.AtomicCursor where
  index : Nat
  offset : Nat
  max_index : Nat
  copied_bits : Nat
  valid_bits : Nat

/-- Bitmap.cpp `AtomicCursor::fetch_clear_bits_atomic`, sequentially: the
word containing `bp` is atomically ANDed with the complement of the mask
of the `count` fetched bits (`atomic_and_return_orig`), and the original
bits are returned shifted down to bit 0.  Returns (result, count, new
bitmap). -/
def Bitmap.AtomicCursor.fetch_clear_bits_atomic (m : Bitmap) (bp mx : Nat) :
    Nat × Nat × Bitmap :=
  let result_shift := bp &&& mask 6
  let count0 := bits_per_word - result_shift
  let count := if count0 > mx - bp then mx - bp else count0
  let result_mask := mask count
  let c := Bitmap.index bp
  let orig := m.word c
  let m2 := m.setWord c (orig &&& compl64 (result_mask <<< result_shift))
  ((orig >>> result_shift) &&& result_mask, count, m2)

/-- Bitmap.h `AtomicCursor::AtomicCursor(b, start, length)`: records the
start (as both current index and offset) and bound, then performs the
first, possibly unaligned fetch. -/
def Bitmap.mkAtomicCursor (m : Bitmap) (start length : Nat) :
    Bitmap.AtomicCursor × Bitmap :=
  let f := Bitmap.AtomicCursor.fetch_clear_bits_atomic m start (start + length)
  ({ index := start, offset := start, max_index := start + length,
     copied_bits := f.1, valid_bits := f.2.1 }, f.2.2)

/-- Bitmap.cpp `AtomicCursor::next_set_bit`, sequentially.  Returns the
yielded value ((usword_t)-1, i.e. `not_found`, when exhausted), the new
cursor state and the new bitmap.  Stage 1: if the cache is empty advance
the index past the cached window; stage 2: if still empty and in range,
skip zero words and refetch; stage 3: either consume the lowest cached
bit or report exhaustion. -/
def Bitmap.AtomicCursor.next_set_bit (st : Bitmap.AtomicCursor) (m : Bitmap) :
    Nat × Bitmap.AtomicCursor × Bitmap :=
  let st1 := if st.copied_bits = 0 then
      { st with index := st.index + st.valid_bits } else st
  let s2 :=
    if st1.copied_bits = 0 then
      if st1.index < st1.max_index then
        let start := Bitmap.index st1.index
        let e := Bitmap.index st1.max_index
        let cur := m.skip_all_zeros start e
        let idx := bits_per_word * cur
        if idx < st1.max_index then
          let f := Bitmap.AtomicCursor.fetch_clear_bits_atomic m idx st1.max_index
          ({ st1 with index := idx, copied_bits := f.1, valid_bits := f.2.1 },
           f.2.2)
        else ({ st1 with index := idx }, m)
      else (st1, m)
    else (st1, m)
  let st2 := s2.1
  if st2.copied_bits ≠ 0 then
    let sh := count_trailing_zeros st2.copied_bits
    let cb := (st2.copied_bits >>> sh) >>> 1
    (st2.index + sh - st2.offset,
     { index := st2.index + sh + 1, offset := st2.offset,
       max_index := st2.max_index, copied_bits := cb,
       valid_bits := st2.valid_bits - (sh + 1) },
     s2.2)
  else (not_found, { st2 with index := st2.max_index }, s2.2)

/-- Repeated `next_set_bit` calls until the first `not_found` (or fuel
runs out): the list of (yield, bitmap-right-after-that-yield) pairs, and
the bitmap after the final call. -/
def Bitmap.AtomicCursor.cursorSteps (st : Bitmap.AtomicCursor) (m : Bitmap) :
    Nat → List (Nat × Bitmap) × Bitmap
  | 0 => ([], m)
  | fuel + 1 =>
    let r := Bitmap.AtomicCursor.next_set_bit st m
    if r.1 = not_found then ([], r.2.2)
    else
      let rest := Bitmap.AtomicCursor.cursorSteps r.2.1 r.2.2 fuel
      ((r.1, r.2.2) :: rest.1, rest.2)

/-- The positions `base + j`, `j < n`, at which the word `w` has a 1. -/
def bitsList (w base n : Nat) : List Nat :=
  ((List.range n).filter (fun j => w.testBit j)).map (fun j => base + j)

/-- The positions in `[a, a + len)` at which the bitmap has a 1. -/
def Bitmap.setList (m : Bitmap) (a len : Nat) : List Nat :=
  ((List.range len).filter (fun j => m.bit (a + j) == 1)).map (fun j => a + j)

/-- The positions an AtomicCursor has yet to yield: those already fetched
into the cache, then the still-set positions between the cached window's
end and the scan bound. -/
def Bitmap.AtomicCursor.pending (st : Bitmap.AtomicCursor) (m : Bitmap) :
    List Nat :=
  bitsList st.copied_bits st.index st.valid_bits ++
    m.setList (st.index + st.valid_bits)
      (st.max_index - (st.index + st.valid_bits))

/-- The invariant holding between `next_set_bit` calls of a cursor over
`[s, s + L)`: fixed offset and bound, a cache below `2 ^ valid_bits`, a
cached window ending at a word boundary or at the bound, every bitmap bit
from `s` up to the window's end already cleared, bits outside `[s, s+L)`
never touched being a separate frame condition of the theorems. -/
def Bitmap.AtomicCursor.Inv (s L : Nat) (st : Bitmap.AtomicCursor)
    (m : Bitmap) : Prop :=
  st.offset = s ∧ st.max_index = s + L ∧ s ≤ st.index ∧
  st.copied_bits < 2 ^ st.valid_bits ∧ st.valid_bits ≤ 64 ∧
  st.index + st.valid_bits ≤ s + L ∧
  ((st.index + st.valid_bits) % 64 = 0 ∨ st.index + st.valid_bits = s + L) ∧
  (∀ p, s ≤ p → p < st.index + st.valid_bits → m.bit p = 0) ∧
  s + L ≤ m.size_in_bits ∧ m.WF

end Auto

namespace Auto

theorem fetch_clear_eq (m : Bitmap) (bp mx : Nat) :
    Bitmap.AtomicCursor.fetch_clear_bits_atomic m bp mx =
      ((m.word (bp / 64) >>> (bp % 64)) &&& mask (min (64 - bp % 64) (mx - bp)),
       min (64 - bp % 64) (mx - bp),
       m.clear_bits bp (min (64 - bp % 64) (mx - bp))) := by
  have hsh : bp &&& mask 6 = bp % 64 := by
    have h6 : mask 6 = 2 ^ 6 - 1 := rfl
    rw [h6, and_mask_eq_mod]
    norm_num
  have hmlt : bp % 64 < 64 := Nat.mod_lt _ (by omega)
  have hmin : (if bits_per_word - bp % 64 > mx - bp then mx - bp
      else bits_per_word - bp % 64) = min (64 - bp % 64) (mx - bp) := by
    unfold bits_per_word
    rw [Nat.min_def]
    split_ifs <;> omega
  simp only [Bitmap.AtomicCursor.fetch_clear_bits_atomic, hsh, index_eq_div]
  rw [hmin]
  unfold Bitmap.clear_bits
  rw [shift_eq_mod, index_eq_div]
  rw [if_neg (by unfold bits_per_word; omega)]

theorem fetch_result_lt (m : Bitmap) (bp mx : Nat) :
    (Bitmap.AtomicCursor.fetch_clear_bits_atomic m bp mx).1
      < 2 ^ (Bitmap.AtomicCursor.fetch_clear_bits_atomic m bp mx).2.1 := by
  rw [fetch_clear_eq]
  dsimp only
  refine lt_of_le_of_lt Nat.and_le_right ?_
  unfold mask
  have := Nat.pos_pow_of_pos (min (64 - bp % 64) (mx - bp)) (show 0 < 2 by omega)
  omega

theorem fetch_result_testBit (m : Bitmap) (bp mx j : Nat)
    (hj : j < min (64 - bp % 64) (mx - bp)) :
    (Bitmap.AtomicCursor.fetch_clear_bits_atomic m bp mx).1.testBit j
      = (m.bit (bp + j) == 1) := by
  have e1 : 64 * (bp / 64) + bp % 64 = bp := Nat.div_add_mod bp 64
  have hmlt : bp % 64 < 64 := Nat.mod_lt _ (by omega)
  rw [fetch_clear_eq]
  dsimp only
  rw [Nat.testBit_and, Nat.testBit_shiftRight, testBit_mask]
  have hdiv : (bp + j) / 64 = bp / 64 := by
    have h1 := Nat.div_add_mod (bp + j) 64
    have h2 : (bp + j) % 64 < 64 := Nat.mod_lt _ (by omega)
    omega
  have hmod : (bp + j) % 64 = bp % 64 + j := by
    have h1 := Nat.div_add_mod (bp + j) 64
    have h2 : (bp + j) % 64 < 64 := Nat.mod_lt _ (by omega)
    omega
  have hbit : m.bit (bp + j) = (if (m.word (bp / 64)).testBit (bp % 64 + j)
      then 1 else 0) := by
    rw [bit_eq_toNat, index_eq_div, shift_eq_mod, hdiv, hmod]
    cases h : (m.word (bp / 64)).testBit (bp % 64 + j) <;> simp
  rw [hbit]
  by_cases hw : (m.word (bp / 64)).testBit (bp % 64 + j) <;> simp [hw, hj]

theorem WF_clear_bits_single (m : Bitmap) (bp n : Nat) (hwf : m.WF)
    (hn : bp % 64 + n ≤ 64) : (m.clear_bits bp n).WF := by
  unfold Bitmap.clear_bits
  rw [shift_eq_mod]
  rw [if_neg (by unfold bits_per_word; omega)]
  intro w hw
  rcases List.mem_or_eq_of_mem_set hw with h | h
  · exact hwf w h
  · rw [h]
    exact lt_of_le_of_lt Nat.and_le_left (word_lt_of_WF m hwf _)

theorem length_clear_bits_single (m : Bitmap) (bp n : Nat)
    (hn : bp % 64 + n ≤ 64) :
    (m.clear_bits bp n).words.length = m.words.length := by
  unfold Bitmap.clear_bits
  rw [shift_eq_mod]
  rw [if_neg (by unfold bits_per_word; omega)]
  exact List.length_set _ _ _

theorem bitsList_zero (base n : Nat) : bitsList 0 base n = [] := by
  unfold bitsList
  rw [List.filter_eq_nil_iff.mpr]
  · rfl
  · intro a ha
    rw [Nat.zero_testBit]
    simp

theorem setList_zero_len (m : Bitmap) (a : Nat) : m.setList a 0 = [] := rfl

theorem setList_split (m : Bitmap) (a u v : Nat) :
    m.setList a (u + v) = m.setList a u ++ m.setList (a + u) v := by
  unfold Bitmap.setList
  rw [List.range_add, List.filter_append, List.map_append, List.filter_map]
  congr 1
  rw [List.map_map]
  have hcong : List.filter ((fun j => m.bit (a + j) == 1) ∘ fun x => u + x)
      (List.range v) = List.filter (fun j => m.bit (a + u + j) == 1)
        (List.range v) := by
    apply List.filter_congr
    intro x hx
    simp only [Function.comp]
    have : a + (u + x) = a + u + x := by omega
    rw [this]
  rw [hcong]
  apply List.map_congr_left
  intro x hx
  simp only [Function.comp]
  omega

theorem setList_nil_of_zero (m : Bitmap) (a len : Nat)
    (h : ∀ p, a ≤ p → p < a + len → m.bit p = 0) : m.setList a len = [] := by
  unfold Bitmap.setList
  rw [List.filter_eq_nil_iff.mpr]
  · rfl
  · intro j hj
    rw [List.mem_range] at hj
    have := h (a + j) (by omega) (by omega)
    simp [this]

theorem setList_congr (m1 m2 : Bitmap) (a len : Nat)
    (h : ∀ p, a ≤ p → p < a + len → m1.bit p = m2.bit p) :
    m1.setList a len = m2.setList a len := by
  unfold Bitmap.setList
  congr 1
  apply List.filter_congr
  intro j hj
  rw [List.mem_range] at hj
  rw [h (a + j) (by omega) (by omega)]

theorem bitsList_eq_setList (m : Bitmap) (w base n : Nat)
    (h : ∀ j, j < n → w.testBit j = (m.bit (base + j) == 1)) :
    bitsList w base n = m.setList base n := by
  unfold bitsList Bitmap.setList
  congr 1
  apply List.filter_congr
  intro j hj
  rw [List.mem_range] at hj
  exact h j hj

theorem mem_setList (m : Bitmap) (a len p : Nat) (h : p ∈ m.setList a len) :
    a ≤ p ∧ p < a + len ∧ m.bit p = 1 := by
  unfold Bitmap.setList at h
  rw [List.mem_map] at h
  obtain ⟨j, hj, hpj⟩ := h
  rw [List.mem_filter, List.mem_range] at hj
  subst hpj
  refine ⟨by omega, by omega, ?_⟩
  have := hj.2
  simpa using this

theorem length_setList_le (m : Bitmap) (a len : Nat) :
    (m.setList a len).length ≤ len := by
  unfold Bitmap.setList
  rw [List.length_map]
  exact le_trans (List.length_filter_le _ _) (by rw [List.length_range])

end Auto

namespace Auto

theorem shiftRight_lt_two_pow (w n k : Nat) (h : w < 2 ^ n) (hk : k ≤ n) :
    w >>> k < 2 ^ (n - k) := by
  rw [Nat.shiftRight_eq_div_pow]
  apply Nat.div_lt_of_lt_mul
  calc w < 2 ^ n := h
    _ = 2 ^ k * 2 ^ (n - k) := by
      rw [← pow_add]
      congr 1
      omega

theorem ctz_lt_of_lt_two_pow (w n : Nat) (hw : w ≠ 0) (hlt : w < 2 ^ n)
    (hn : n ≤ 64) : count_trailing_zeros w < n := by
  obtain ⟨hk, hbk, hmin⟩ := ctz_spec w hw
    (lt_of_lt_of_le hlt (Nat.pow_le_pow_right (by omega) hn))
  by_contra hc
  have : w.testBit (count_trailing_zeros w) = false :=
    Nat.testBit_lt_two_pow (lt_of_lt_of_le hlt
      (Nat.pow_le_pow_right (by omega) (by omega)))
  rw [this] at hbk
  exact Bool.false_ne_true hbk

theorem bitsList_min_cons (w base n : Nat) (hw : w ≠ 0) (hlt : w < 2 ^ n)
    (hn : n ≤ 64) :
    bitsList w base n = (base + count_trailing_zeros w) ::
      bitsList (w >>> (count_trailing_zeros w + 1))
        (base + count_trailing_zeros w + 1)
        (n - (count_trailing_zeros w + 1)) := by
  obtain ⟨hk, hbk, hmin⟩ := ctz_spec w hw
    (lt_of_lt_of_le hlt (Nat.pow_le_pow_right (by omega) hn))
  have hkn : count_trailing_zeros w < n := ctz_lt_of_lt_two_pow w n hw hlt hn
  unfold bitsList
  have hn2 : n = (count_trailing_zeros w + 1) + (n - (count_trailing_zeros w + 1)) := by
    omega
  rw [hn2, List.range_add, List.filter_append, List.map_append]
  have h1 : (List.range (count_trailing_zeros w + 1)).filter
      (fun j => w.testBit j) = [count_trailing_zeros w] := by
    have hs : count_trailing_zeros w + 1 = Nat.succ (count_trailing_zeros w) := rfl
    rw [hs, List.range_succ, List.filter_append]
    rw [List.filter_eq_nil_iff.mpr]
    · simp [hbk]
    · intro a ha
      rw [List.mem_range] at ha
      simp [hmin a ha]
  rw [h1, List.filter_map, List.map_map]
  have h2 : List.filter ((fun j => w.testBit j) ∘ fun x => count_trailing_zeros w + 1 + x)
      (List.range (n - (count_trailing_zeros w + 1)))
      = List.filter (fun j => (w >>> (count_trailing_zeros w + 1)).testBit j)
        (List.range (n - (count_trailing_zeros w + 1))) := by
    apply List.filter_congr
    intro x hx
    simp only [Function.comp]
    rw [Nat.testBit_shiftRight]
  rw [h2]
  simp only [List.map_cons, List.map_nil, List.singleton_append]
  congr 1
  have h3 : count_trailing_zeros w + 1 + (n - (count_trailing_zeros w + 1))
      - (count_trailing_zeros w + 1) = n - (count_trailing_zeros w + 1) := by
    omega
  rw [h3]
  apply List.map_congr_left
  intro x hx
  simp only [Function.comp]
  omega

end Auto

namespace Auto

theorem bit_clear_bits_single_frame (m : Bitmap) (bp n p : Nat)
    (hn : bp % 64 + n ≤ 64) (h : p < bp ∨ bp + n ≤ p) :
    (m.clear_bits bp n).bit p = m.bit p := by
  have e1 : 64 * (bp / 64) + bp % 64 = bp := Nat.div_add_mod bp 64
  have e2 : 64 * (p / 64) + p % 64 = p := Nat.div_add_mod p 64
  have h5 : bp % 64 < 64 := Nat.mod_lt _ (by omega)
  have h6 : p % 64 < 64 := Nat.mod_lt _ (by omega)
  unfold Bitmap.clear_bits
  rw [shift_eq_mod, index_eq_div]
  rw [if_neg (by unfold bits_per_word; omega)]
  rw [bit_eq_toNat, bit_eq_toNat, index_eq_div, shift_eq_mod, word_setWord]
  by_cases c1 : bp / 64 = p / 64 ∧ bp / 64 < m.words.length
  · rw [if_pos c1, Nat.testBit_and]
    have hmb : ((compl64 (mask n <<< (bp % 64))).testBit (p % 64)) = true := by
      rw [testBit_compl64 _ _ h6, Nat.testBit_mod_two_pow,
        Nat.testBit_shiftLeft, testBit_mask]
      by_cases hle : bp % 64 ≤ p % 64
      · simp [ge_iff_le, hle, h6]
        have hc := c1.1
        omega
      · simp [ge_iff_le, hle, h6]
    rw [hmb, ← c1.1]
    simp
  · rw [if_neg c1]

theorem mkAtomicCursor_spec (m : Bitmap) (s L : Nat) (hwf : m.WF)
    (hr : s + L ≤ m.size_in_bits) :
    Bitmap.AtomicCursor.Inv s L (m.mkAtomicCursor s L).1 (m.mkAtomicCursor s L).2 ∧
    (m.mkAtomicCursor s L).1.pending (m.mkAtomicCursor s L).2 = m.setList s L ∧
    (∀ p, p < s ∨ s + min (64 - s % 64) L ≤ p →
      (m.mkAtomicCursor s L).2.bit p = m.bit p) ∧
    (∀ p, s ≤ p → p < s + min (64 - s % 64) L →
      (m.mkAtomicCursor s L).2.bit p = 0) ∧
    (m.mkAtomicCursor s L).1.index = s ∧
    (m.mkAtomicCursor s L).1.offset = s ∧
    (m.mkAtomicCursor s L).1.max_index = s + L ∧
    (m.mkAtomicCursor s L).1.valid_bits = min (64 - s % 64) L ∧
    (∀ j, j < min (64 - s % 64) L →
      ((m.mkAtomicCursor s L).1.copied_bits.testBit j = (m.bit (s + j) == 1))) := by
  have e1 : 64 * (s / 64) + s % 64 = s := Nat.div_add_mod s 64
  have h5 : s % 64 < 64 := Nat.mod_lt _ (by omega)
  have hmineq : min (64 - s % 64) ((s + L) - s) = min (64 - s % 64) L := by omega
  have hct : s % 64 + min (64 - s % 64) L ≤ 64 := by omega
  have hfe := fetch_clear_eq m s (s + L)
  rw [hmineq] at hfe
  have hm2 : (m.mkAtomicCursor s L).2 = m.clear_bits s (min (64 - s % 64) L) := by
    unfold Bitmap.mkAtomicCursor
    rw [hfe]
  have hcb : (m.mkAtomicCursor s L).1.copied_bits
      = (Bitmap.AtomicCursor.fetch_clear_bits_atomic m s (s + L)).1 := rfl
  have hvb : (m.mkAtomicCursor s L).1.valid_bits = min (64 - s % 64) L := by
    unfold Bitmap.mkAtomicCursor
    rw [hfe]
  have hclt : (m.mkAtomicCursor s L).1.copied_bits
      < 2 ^ (m.mkAtomicCursor s L).1.valid_bits := by
    rw [hcb, hvb]
    have := fetch_result_lt m s (s + L)
    rw [hfe] at this
    rw [hfe]
    exact this
  have hcbt : ∀ j, j < min (64 - s % 64) L →
      ((m.mkAtomicCursor s L).1.copied_bits.testBit j = (m.bit (s + j) == 1)) := by
    intro j hj
    rw [hcb]
    have := fetch_result_testBit m s (s + L) j (by omega)
    exact this
  have hzero : ∀ p, s ≤ p → p < s + min (64 - s % 64) L →
      (m.mkAtomicCursor s L).2.bit p = 0 := by
    intro p hp1 hp2
    rw [hm2, bit_clear_bits m s _ p (by
      unfold Bitmap.size_in_bits bits_per_word at hr ⊢
      omega), if_pos ⟨hp1, hp2⟩]
  have hframe : ∀ p, p < s ∨ s + min (64 - s % 64) L ≤ p →
      (m.mkAtomicCursor s L).2.bit p = m.bit p := by
    intro p hp
    rw [hm2]
    exact bit_clear_bits_single_frame m s _ p hct hp
  have hlen : (m.mkAtomicCursor s L).2.words.length = m.words.length := by
    rw [hm2]
    exact length_clear_bits_single m s _ hct
  have hidx : (m.mkAtomicCursor s L).1.index = s := rfl
  have hmax : (m.mkAtomicCursor s L).1.max_index = s + L := rfl
  refine ⟨⟨rfl, rfl, Nat.le_refl s, hclt, by rw [hvb]; omega,
      by rw [hidx, hvb]; omega, ?_, ?_, ?_, ?_⟩, ?_, hframe, hzero, rfl, rfl,
      rfl, hvb, hcbt⟩
  · rw [hidx, hvb]
    omega
  · intro p hp1 hp2
    rw [hidx, hvb] at hp2
    exact hzero p hp1 hp2
  · simp only [Bitmap.size_in_bits] at hr ⊢
    rw [hlen]
    exact hr
  · rw [hm2]
    exact WF_clear_bits_single m s _ hwf hct
  · unfold Bitmap.AtomicCursor.pending
    rw [hidx, hmax, hvb, hcb]
    have hp1 : bitsList (Bitmap.AtomicCursor.fetch_clear_bits_atomic m s (s + L)).1
        s (min (64 - s % 64) L) = m.setList s (min (64 - s % 64) L) := by
      apply bitsList_eq_setList
      intro j hj
      exact fetch_result_testBit m s (s + L) j (by omega)
    have hlen2 : s + L - (s + min (64 - s % 64) L) = L - min (64 - s % 64) L := by
      omega
    have hp2 : (m.mkAtomicCursor s L).2.setList (s + min (64 - s % 64) L)
        (L - min (64 - s % 64) L)
        = m.setList (s + min (64 - s % 64) L) (L - min (64 - s % 64) L) := by
      apply setList_congr
      intro p hq1 hq2
      exact hframe p (Or.inr hq1)
    have hp3 := setList_split m s (min (64 - s % 64) L) (L - min (64 - s % 64) L)
    have hLeq : min (64 - s % 64) L + (L - min (64 - s % 64) L) = L := by omega
    rw [hLeq] at hp3
    rw [hp1, hlen2, hp2, hp3]

end Auto

namespace Auto

/-- C9: constructing an AtomicCursor itself mutates the bitmap — the
constructor performs one atomic fetch-and-clear on the word containing
`start`, so every bit in `[start, min(start+length, next word boundary
after start))` is cleared at construction time and held only in the
cursor's cache (`copied_bits` holds exactly the original bits of that
window, before any `next_set_bit` call), while bits outside that window
are unchanged. -/
theorem atomic_cursor_ctor_clears_first_window (m : Bitmap) (s L p j : Nat)
    (hwf : m.WF) (hr : s + L ≤ m.size_in_bits) :
    (s ≤ p → p < min (s + L) (64 * (s / 64) + 64) →
      (m.mkAtomicCursor s L).2.bit p = 0) ∧
    (p < s ∨ min (s + L) (64 * (s / 64) + 64) ≤ p →
      (m.mkAtomicCursor s L).2.bit p = m.bit p) ∧
    (m.mkAtomicCursor s L).1.valid_bits
      = min (s + L) (64 * (s / 64) + 64) - s ∧
    (j < (m.mkAtomicCursor s L).1.valid_bits →
      ((m.mkAtomicCursor s L).1.copied_bits.testBit j = (m.bit (s + j) == 1))) := by
  obtain ⟨hinv, hpend, hframe, hzero, hidx, hoff, hmax, hvb, hcbt⟩ :=
    mkAtomicCursor_spec m s L hwf hr
  have e1 : 64 * (s / 64) + s % 64 = s := Nat.div_add_mod s 64
  have h5 : s % 64 < 64 := Nat.mod_lt _ (by omega)
  have heq : s + min (64 - s % 64) L = min (s + L) (64 * (s / 64) + 64) := by
    omega
  refine ⟨fun h1 h2 => hzero p h1 (by omega), fun h => hframe p (by omega),
    by rw [hvb]; omega, fun hj => hcbt j (by rw [hvb] at hj; exact hj)⟩

/-- Witness for `atomic_cursor_ctor_clears_first_window`: a two-word
bitmap with bits 5, 9 and 67 set, cursor over `[3, 103)`; position 9 is
inside the first fetched window `[3, 64)`, and cache bit `6` corresponds
to it. -/
theorem atomic_cursor_ctor_clears_first_window_witness :
    ((Bitmap.mk [2 ^ 5 + 2 ^ 9, 2 ^ 3]).WF ∧
     3 + 100 ≤ (Bitmap.mk [2 ^ 5 + 2 ^ 9, 2 ^ 3]).size_in_bits) ∧
    ((3 ≤ 9 → 9 < min (3 + 100) (64 * (3 / 64) + 64) →
      ((Bitmap.mk [2 ^ 5 + 2 ^ 9, 2 ^ 3]).mkAtomicCursor 3 100).2.bit 9 = 0) ∧
     (9 < 3 ∨ min (3 + 100) (64 * (3 / 64) + 64) ≤ 9 →
      ((Bitmap.mk [2 ^ 5 + 2 ^ 9, 2 ^ 3]).mkAtomicCursor 3 100).2.bit 9
        = (Bitmap.mk [2 ^ 5 + 2 ^ 9, 2 ^ 3]).bit 9) ∧
     ((Bitmap.mk [2 ^ 5 + 2 ^ 9, 2 ^ 3]).mkAtomicCursor 3 100).1.valid_bits
       = min (3 + 100) (64 * (3 / 64) + 64) - 3 ∧
     (6 < ((Bitmap.mk [2 ^ 5 + 2 ^ 9, 2 ^ 3]).mkAtomicCursor 3 100).1.valid_bits →
      (((Bitmap.mk [2 ^ 5 + 2 ^ 9, 2 ^ 3]).mkAtomicCursor 3 100).1.copied_bits.testBit 6
        = ((Bitmap.mk [2 ^ 5 + 2 ^ 9, 2 ^ 3]).bit (3 + 6) == 1)))) :=
  ⟨⟨by decide, by decide⟩,
   atomic_cursor_ctor_clears_first_window ⟨[2 ^ 5 + 2 ^ 9, 2 ^ 3]⟩ 3 100 9 6
     (by decide) (by decide)⟩

end Auto

namespace Auto

theorem next_set_bit_eq_of_cache (st : Bitmap.AtomicCursor) (m : Bitmap)
    (hc : st.copied_bits ≠ 0) :
    st.next_set_bit m =
      (st.index + count_trailing_zeros st.copied_bits - st.offset,
       { index := st.index + count_trailing_zeros st.copied_bits + 1,
         offset := st.offset, max_index := st.max_index,
         copied_bits := (st.copied_bits >>> count_trailing_zeros st.copied_bits) >>> 1,
         valid_bits := st.valid_bits - (count_trailing_zeros st.copied_bits + 1) },
       m) := by
  simp only [Bitmap.AtomicCursor.next_set_bit, if_neg hc, hc, ite_false,
    not_false_eq_true, if_pos, ne_eq]

theorem next_set_bit_eq_done (st : Bitmap.AtomicCursor) (m : Bitmap)
    (hc : st.copied_bits = 0)
    (hEL : ¬ st.index + st.valid_bits < st.max_index) :
    st.next_set_bit m =
      (not_found,
       { index := st.max_index, offset := st.offset, max_index := st.max_index,
         copied_bits := st.copied_bits, valid_bits := st.valid_bits }, m) := by
  simp only [Bitmap.AtomicCursor.next_set_bit, hc, if_pos, ite_true, hEL,
    ite_false, ne_eq, not_true_eq_false, if_neg, not_false_eq_true]

theorem next_set_bit_eq_skip_out (st : Bitmap.AtomicCursor) (m : Bitmap)
    (hc : st.copied_bits = 0)
    (hEL : st.index + st.valid_bits < st.max_index)
    (hix : ¬ bits_per_word * m.skip_all_zeros
      (Bitmap.index (st.index + st.valid_bits)) (Bitmap.index st.max_index)
        < st.max_index) :
    st.next_set_bit m =
      (not_found,
       { index := st.max_index, offset := st.offset, max_index := st.max_index,
         copied_bits := st.copied_bits, valid_bits := st.valid_bits }, m) := by
  simp only [Bitmap.AtomicCursor.next_set_bit, hc, if_pos, ite_true, hEL,
    hix, ite_false, ne_eq, not_true_eq_false, if_neg, not_false_eq_true]

theorem next_set_bit_eq_refetch (st : Bitmap.AtomicCursor) (m : Bitmap)
    (hc : st.copied_bits = 0)
    (hEL : st.index + st.valid_bits < st.max_index)
    (hix : bits_per_word * m.skip_all_zeros
      (Bitmap.index (st.index + st.valid_bits)) (Bitmap.index st.max_index)
        < st.max_index) :
    st.next_set_bit m =
      (let idx := bits_per_word * m.skip_all_zeros
        (Bitmap.index (st.index + st.valid_bits)) (Bitmap.index st.max_index)
       let f := Bitmap.AtomicCursor.fetch_clear_bits_atomic m idx st.max_index
       if hcz : f.1 ≠ 0 then
        (idx + count_trailing_zeros f.1 - st.offset,
         { index := idx + count_trailing_zeros f.1 + 1, offset := st.offset,
           max_index := st.max_index,
           copied_bits := (f.1 >>> count_trailing_zeros f.1) >>> 1,
           valid_bits := f.2.1 - (count_trailing_zeros f.1 + 1) }, f.2.2)
       else
        (not_found,
         { index := st.max_index, offset := st.offset, max_index := st.max_index,
           copied_bits := f.1, valid_bits := f.2.1 }, f.2.2)) := by
  simp only [Bitmap.AtomicCursor.next_set_bit, hc, if_pos, ite_true, hEL, hix,
    ne_eq]
  by_cases hcz : (Bitmap.AtomicCursor.fetch_clear_bits_atomic m
      (bits_per_word * m.skip_all_zeros
        (Bitmap.index (st.index + st.valid_bits)) (Bitmap.index st.max_index))
      st.max_index).1 = 0 <;>
    simp [hcz]

end Auto

namespace Auto

theorem bit_zero_of_word_zero (m : Bitmap) (q : Nat)
    (h : m.word (q / 64) = 0) : m.bit q = 0 := by
  rw [bit_eq_toNat, index_eq_div, shift_eq_mod, h, Nat.zero_testBit]
  rfl

theorem bit_eq_zero_of_ne_one (m : Bitmap) (q : Nat) (h : m.bit q ≠ 1) :
    m.bit q = 0 := by
  have := bit_le_one m q
  omega

theorem AtomicCursor_Inv_intro (s L idx off mx cp vb : Nat) (m : Bitmap)
    (h1 : off = s) (h2 : mx = s + L) (h3 : s ≤ idx) (h4 : cp < 2 ^ vb)
    (h5 : vb ≤ 64) (h6 : idx + vb ≤ s + L)
    (h7 : (idx + vb) % 64 = 0 ∨ idx + vb = s + L)
    (h8 : ∀ p, s ≤ p → p < idx + vb → m.bit p = 0)
    (h9 : s + L ≤ m.size_in_bits) (h10 : m.WF) :
    Bitmap.AtomicCursor.Inv s L
      { index := idx, offset := off, max_index := mx,
        copied_bits := cp, valid_bits := vb } m :=
  ⟨h1, h2, h3, h4, h5, h6, h7, h8, h9, h10⟩

theorem next_set_bit_step (s L : Nat) (st : Bitmap.AtomicCursor) (m : Bitmap)
    (hinv : Bitmap.AtomicCursor.Inv s L st m) :
    (st.pending m = [] →
      (st.next_set_bit m).1 = not_found ∧
      ∀ p, (st.next_set_bit m).2.2.bit p = m.bit p) ∧
    (∀ v rest, st.pending m = v :: rest →
      (st.next_set_bit m).1 = v - s ∧
      Bitmap.AtomicCursor.Inv s L (st.next_set_bit m).2.1 (st.next_set_bit m).2.2 ∧
      (st.next_set_bit m).2.1.pending (st.next_set_bit m).2.2 = rest ∧
      (st.next_set_bit m).2.2.bit v = 0 ∧
      s ≤ v ∧ v < s + L ∧
      (∀ p, p < s ∨ s + L ≤ p → (st.next_set_bit m).2.2.bit p = m.bit p)) := by
  obtain ⟨hoff, hmax, hsi, hclt, hv64, hEb, halign, hZC, hsz, hwf⟩ := hinv
  by_cases hc : st.copied_bits = 0
  case neg =>
    -- cache hit: yield the lowest cached bit, bitmap untouched
    rw [next_set_bit_eq_of_cache st m hc]
    dsimp only [Bitmap.AtomicCursor.index, Bitmap.AtomicCursor.offset,
      Bitmap.AtomicCursor.max_index, Bitmap.AtomicCursor.copied_bits,
      Bitmap.AtomicCursor.valid_bits]
    have hctzlt : count_trailing_zeros st.copied_bits < st.valid_bits :=
      ctz_lt_of_lt_two_pow _ _ hc hclt hv64
    have hcons : st.pending m = (st.index + count_trailing_zeros st.copied_bits) ::
        (bitsList (st.copied_bits >>> (count_trailing_zeros st.copied_bits + 1))
          (st.index + count_trailing_zeros st.copied_bits + 1)
          (st.valid_bits - (count_trailing_zeros st.copied_bits + 1)) ++
         m.setList (st.index + st.valid_bits)
           (st.max_index - (st.index + st.valid_bits))) := by
      unfold Bitmap.AtomicCursor.pending
      rw [bitsList_min_cons st.copied_bits st.index st.valid_bits hc hclt hv64]
      rfl
    refine ⟨fun hpe => absurd (hcons ▸ hpe) (by simp), fun v rest hvr => ?_⟩
    rw [hcons] at hvr
    injection hvr with hv hrest
    subst hv
    subst hrest
    have hEeq : st.index + count_trailing_zeros st.copied_bits + 1 +
        (st.valid_bits - (count_trailing_zeros st.copied_bits + 1))
        = st.index + st.valid_bits := by omega
    refine ⟨by rw [hoff], ?_, ?_, ?_, ?_, ?_, ?_⟩
    · refine AtomicCursor_Inv_intro s L _ _ _ _ _ m hoff hmax (by omega) ?_
        (by omega) (by omega) ?_ ?_ hsz hwf
      · rw [← Nat.shiftRight_add]
        exact shiftRight_lt_two_pow _ _ _ hclt (by omega)
      · rw [hEeq]
        exact halign
      · intro p hp1 hp2
        rw [hEeq] at hp2
        exact hZC p hp1 hp2
    · unfold Bitmap.AtomicCursor.pending
      rw [← Nat.shiftRight_add, hEeq]
    · exact hZC _ (by omega) (by omega)
    · omega
    · omega
    · exact fun p hp => rfl
  case pos =>
    have hpt : st.pending m = m.setList (st.index + st.valid_bits)
        (st.max_index - (st.index + st.valid_bits)) := by
      unfold Bitmap.AtomicCursor.pending
      rw [hc, bitsList_zero]
      rfl
    by_cases hEL : st.index + st.valid_bits < st.max_index
    case neg =>
      -- exhausted: the window already reached the bound
      rw [next_set_bit_eq_done st m hc hEL]
      have hpe : st.pending m = [] := by
        rw [hpt, show st.max_index - (st.index + st.valid_bits) = 0 by omega]
        exact setList_zero_len m _
      exact ⟨fun _ => ⟨rfl, fun p => rfl⟩,
        fun v rest hvr => absurd (hpe ▸ hvr) (by simp)⟩
    case pos =>
      have hal : (st.index + st.valid_bits) % 64 = 0 := by
        rcases halign with h | h
        · exact h
        · omega
      have hEdm : 64 * ((st.index + st.valid_bits) / 64) +
          (st.index + st.valid_bits) % 64 = st.index + st.valid_bits :=
        Nat.div_add_mod _ 64
      have hMdm : 64 * (st.max_index / 64) + st.max_index % 64 = st.max_index :=
        Nat.div_add_mod _ 64
      have hMm : st.max_index % 64 < 64 := Nat.mod_lt _ (by omega)
      obtain ⟨hs1, hs2, hs3, hs4⟩ := skipZeroWords_spec m
        (st.max_index / 64 - (st.index + st.valid_bits) / 64)
        ((st.index + st.valid_bits) / 64)
      by_cases hix : bits_per_word * m.skip_all_zeros
          (Bitmap.index (st.index + st.valid_bits)) (Bitmap.index st.max_index)
          < st.max_index
      case neg =>
        -- skipped straight to (or past) the bound: nothing left
        rw [next_set_bit_eq_skip_out st m hc hEL hix]
        simp only [Bitmap.skip_all_zeros, index_eq_div, bits_per_word] at hix
        have hpe : st.pending m = [] := by
          rw [hpt]
          apply setList_nil_of_zero
          intro p hp1 hp2
          apply bit_zero_of_word_zero
          have hpdm : 64 * (p / 64) + p % 64 = p := Nat.div_add_mod p 64
          have hpm : p % 64 < 64 := Nat.mod_lt _ (by omega)
          have hd1 : (st.index + st.valid_bits) / 64 ≤ p / 64 :=
            Nat.div_le_div_right hp1
          exact hs3 _ hd1 (by omega)
        exact ⟨fun _ => ⟨rfl, fun p => rfl⟩,
          fun v rest hvr => absurd (hpe ▸ hvr) (by simp)⟩
      case pos =>
        rw [next_set_bit_eq_refetch st m hc hEL hix]
        simp only [Bitmap.skip_all_zeros, index_eq_div, bits_per_word] at hix ⊢
        set c := m.skipZeroWords ((st.index + st.valid_bits) / 64)
          (st.max_index / 64 - (st.index + st.valid_bits) / 64) with hcdef
        have hcle : (st.index + st.valid_bits) / 64 ≤ c := hs1
        have hcub : c ≤ st.max_index / 64 := by omega
        have hEc : st.index + st.valid_bits ≤ 64 * c := by omega
        have hfe := fetch_clear_eq m (64 * c) st.max_index
        rw [show (64 * c) % 64 = 0 by omega] at hfe
        rw [show (64 * c) / 64 = c by omega] at hfe
        rw [Nat.shiftRight_zero] at hfe
        rw [show (64 : Nat) - 0 = 64 by omega] at hfe
        -- K: the number of bits fetched from word c
        have hKub : min 64 (st.max_index - 64 * c) ≤ 64 := by omega
        have hKpos : 0 < min 64 (st.max_index - 64 * c) := by omega
        have hKwin : 64 * c + min 64 (st.max_index - 64 * c) ≤ st.max_index := by
          omega
        have hw64 : m.word c < 2 ^ 64 := word_lt_of_WF m hwf c
        have hcopy_t : ∀ j, j < min 64 (st.max_index - 64 * c) →
            ((m.word c &&& mask (min 64 (st.max_index - 64 * c))).testBit j
              = (m.bit (64 * c + j) == 1)) := by
          intro j hj
          have := fetch_result_testBit m (64 * c) st.max_index j (by omega)
          rw [hfe] at this
          exact this
        have hclt2 : (m.word c &&& mask (min 64 (st.max_index - 64 * c)))
            < 2 ^ min 64 (st.max_index - 64 * c) := by
          have := fetch_result_lt m (64 * c) st.max_index
          rw [hfe] at this
          exact this
        have hFzero1 : ∀ p, st.index + st.valid_bits ≤ p → p < 64 * c →
            m.bit p = 0 := by
          intro p hp1 hp2
          apply bit_zero_of_word_zero
          have hpdm : 64 * (p / 64) + p % 64 = p := Nat.div_add_mod p 64
          have hpm : p % 64 < 64 := Nat.mod_lt _ (by omega)
          exact hs3 _ (Nat.div_le_div_right hp1) (by omega)
        have hpend : st.pending m
            = m.setList (64 * c) (st.max_index - 64 * c) := by
          rw [hpt]
          have hsplit := setList_split m (st.index + st.valid_bits)
            (64 * c - (st.index + st.valid_bits)) (st.max_index - 64 * c)
          rw [show st.index + st.valid_bits +
            (64 * c - (st.index + st.valid_bits)) = 64 * c by omega] at hsplit
          rw [show st.max_index - (st.index + st.valid_bits)
            = (64 * c - (st.index + st.valid_bits)) + (st.max_index - 64 * c)
            by omega]
          rw [hsplit, setList_nil_of_zero m _ _ (fun p hp1 hp2 =>
            hFzero1 p hp1 (by omega))]
          rfl
        have hframe : ∀ p, p < 64 * c ∨ 64 * c + min 64 (st.max_index - 64 * c) ≤ p →
            (m.clear_bits (64 * c) (min 64 (st.max_index - 64 * c))).bit p
              = m.bit p := by
          intro p hp
          exact bit_clear_bits_single_frame m _ _ p (by omega) hp
        have hsize' : m.size_in_bits
            = (m.clear_bits (64 * c) (min 64 (st.max_index - 64 * c))).size_in_bits := by
          simp only [Bitmap.size_in_bits]
          rw [length_clear_bits_single m _ _ (by omega)]
        by_cases hcz : (m.word c &&& mask (min 64 (st.max_index - 64 * c))) = 0
        · -- fetched an empty (final partial) window: the scan is over
          rw [hfe]
          rw [dif_neg (by simpa using hcz)]
          have hKmax : 64 * c + min 64 (st.max_index - 64 * c) = st.max_index := by
            by_cases hbig : 64 < st.max_index - 64 * c
            · exfalso
              have hclt3 : c < st.max_index / 64 := by omega
              have hwc : m.word c ≠ 0 := hs4 (by omega)
              have : m.word c &&& mask (min 64 (st.max_index - 64 * c))
                  = m.word c := by
                rw [show min 64 (st.max_index - 64 * c) = 64 by omega]
                unfold mask
                rw [and_mask_eq_mod, Nat.mod_eq_of_lt hw64]
              rw [this] at hcz
              exact hwc hcz
            · omega
          have hzero_win : ∀ j, j < min 64 (st.max_index - 64 * c) →
              m.bit (64 * c + j) = 0 := by
            intro j hj
            have h := hcopy_t j hj
            rw [hcz, Nat.zero_testBit] at h
            apply bit_eq_zero_of_ne_one
            intro hb
            rw [hb] at h
            simp at h
          have hpe : st.pending m = [] := by
            rw [hpend]
            apply setList_nil_of_zero
            intro p hp1 hp2
            have := hzero_win (p - 64 * c) (by omega)
            rw [show 64 * c + (p - 64 * c) = p by omega] at this
            exact this
          refine ⟨fun _ => ⟨rfl, fun p => ?_⟩,
            fun v rest hvr => absurd (hpe ▸ hvr) (by simp)⟩
          by_cases hpw : 64 * c ≤ p ∧ p < 64 * c + min 64 (st.max_index - 64 * c)
          · rw [bit_clear_bits m _ _ p (by
              simp only [Bitmap.size_in_bits, bits_per_word] at hsz ⊢
              omega), if_pos hpw]
            have := hzero_win (p - 64 * c) (by omega)
            rw [show 64 * c + (p - 64 * c) = p by omega] at this
            rw [this]
          · exact hframe p (by omega)
        · -- fetched a nonzero window: yield its lowest bit
          rw [hfe]
          rw [dif_pos (by simpa using hcz)]
          dsimp only [Bitmap.AtomicCursor.index, Bitmap.AtomicCursor.offset,
            Bitmap.AtomicCursor.max_index, Bitmap.AtomicCursor.copied_bits,
            Bitmap.AtomicCursor.valid_bits]
          have hctzK : count_trailing_zeros
              (m.word c &&& mask (min 64 (st.max_index - 64 * c)))
              < min 64 (st.max_index - 64 * c) :=
            ctz_lt_of_lt_two_pow _ _ hcz hclt2 hKub
          have hcons2 : st.pending m
              = (64 * c + count_trailing_zeros
                  (m.word c &&& mask (min 64 (st.max_index - 64 * c)))) ::
                (bitsList ((m.word c &&& mask (min 64 (st.max_index - 64 * c)))
                    >>> (count_trailing_zeros
                      (m.word c &&& mask (min 64 (st.max_index - 64 * c))) + 1))
                  (64 * c + count_trailing_zeros
                    (m.word c &&& mask (min 64 (st.max_index - 64 * c))) + 1)
                  (min 64 (st.max_index - 64 * c) - (count_trailing_zeros
                    (m.word c &&& mask (min 64 (st.max_index - 64 * c))) + 1)) ++
                 m.setList (64 * c + min 64 (st.max_index - 64 * c))
                   (st.max_index - (64 * c + min 64 (st.max_index - 64 * c)))) := by
            rw [hpend]
            nth_rewrite 1 [show st.max_index - 64 * c
              = min 64 (st.max_index - 64 * c) +
                (st.max_index - (64 * c + min 64 (st.max_index - 64 * c)))
              by omega]
            rw [setList_split]
            rw [← bitsList_eq_setList m _ (64 * c) _ hcopy_t]
            rw [bitsList_min_cons _ _ _ hcz hclt2 hKub]
            rfl
          refine ⟨fun hpe => absurd (hcons2 ▸ hpe) (by simp),
            fun v rest hvr => ?_⟩
          rw [hcons2] at hvr
          injection hvr with hv hrest
          subst hv
          subst hrest
          refine ⟨by rw [hoff], ?_, ?_, ?_, ?_, ?_, ?_⟩
          · -- invariant after the refetch and yield
            refine AtomicCursor_Inv_intro s L _ _ _ _ _ _ hoff hmax (by omega)
              ?_ (by omega) (by omega) ?_ ?_ ?_ ?_
            · rw [← Nat.shiftRight_add]
              exact shiftRight_lt_two_pow _ _ _ hclt2 (by omega)
            · rw [show 64 * c + count_trailing_zeros
                (m.word c &&& mask (min 64 (st.max_index - 64 * c))) + 1 +
                (min 64 (st.max_index - 64 * c) - (count_trailing_zeros
                  (m.word c &&& mask (min 64 (st.max_index - 64 * c))) + 1))
                = 64 * c + min 64 (st.max_index - 64 * c) by omega]
              rcases Nat.lt_or_ge (st.max_index - 64 * c) 64 with h | h
              · right
                omega
              · left
                omega
            · intro p hp1 hp2
              rw [show 64 * c + count_trailing_zeros
                (m.word c &&& mask (min 64 (st.max_index - 64 * c))) + 1 +
                (min 64 (st.max_index - 64 * c) - (count_trailing_zeros
                  (m.word c &&& mask (min 64 (st.max_index - 64 * c))) + 1))
                = 64 * c + min 64 (st.max_index - 64 * c) by omega] at hp2
              by_cases hpw : 64 * c ≤ p
              · rw [bit_clear_bits m _ _ p (by
                  simp only [Bitmap.size_in_bits, bits_per_word] at hsz ⊢
                  omega), if_pos ⟨hpw, by omega⟩]
              · rw [hframe p (by omega)]
                by_cases hpE : p < st.index + st.valid_bits
                · exact hZC p hp1 hpE
                · exact hFzero1 p (by omega) (by omega)
            · rw [← hsize']
              exact hsz
            · exact WF_clear_bits_single m _ _ hwf (by omega)
          · -- the new pending list is exactly the tail
            unfold Bitmap.AtomicCursor.pending
            rw [← Nat.shiftRight_add]
            rw [show 64 * c + count_trailing_zeros
              (m.word c &&& mask (min 64 (st.max_index - 64 * c))) + 1 +
              (min 64 (st.max_index - 64 * c) - (count_trailing_zeros
                (m.word c &&& mask (min 64 (st.max_index - 64 * c))) + 1))
              = 64 * c + min 64 (st.max_index - 64 * c) by omega]
            congr 1
            apply setList_congr
            intro p hp1 hp2
            exact hframe p (by omega)
          · rw [bit_clear_bits m _ _ _ (by
              simp only [Bitmap.size_in_bits, bits_per_word] at hsz ⊢
              omega), if_pos ⟨by omega, by omega⟩]
          · omega
          · omega
          · intro p hp
            exact hframe p (by omega)

end Auto

namespace Auto

theorem cursorSteps_spec (s L : Nat) (hL : L < not_found) :
    ∀ (fuel : Nat) (st : Bitmap.AtomicCursor) (m : Bitmap),
      Bitmap.AtomicCursor.Inv s L st m →
      (st.pending m).length < fuel →
      ((st.cursorSteps m fuel).1.map Prod.fst
          = (st.pending m).map (fun v => v - s)) ∧
      (∀ pr, pr ∈ (st.cursorSteps m fuel).1 →
        pr.2.bit (s + pr.1) = 0 ∧
        (∀ p, p < s ∨ s + L ≤ p → pr.2.bit p = m.bit p)) ∧
      (∀ p, p < s ∨ s + L ≤ p → (st.cursorSteps m fuel).2.bit p = m.bit p) := by
  intro fuel
  induction fuel with
  | zero =>
    intro st m hinv hlen
    exact absurd hlen (by omega)
  | succ n ih =>
    intro st m hinv hlen
    obtain ⟨hemp, hcons⟩ := next_set_bit_step s L st m hinv
    rcases hp : st.pending m with _ | ⟨v, rest⟩
    · obtain ⟨hr1, hrb⟩ := hemp hp
      simp only [Bitmap.AtomicCursor.cursorSteps]
      rw [if_pos hr1]
      refine ⟨rfl, ?_, ?_⟩
      · intro pr hpr
        exact absurd hpr (List.not_mem_nil pr)
      · intro p hpp
        exact hrb p
    · obtain ⟨hr1, hinv', hpend', hbv, hsv, hvL, hfr⟩ := hcons v rest hp
      have hrne : (st.next_set_bit m).1 ≠ not_found := by
        rw [hr1]
        omega
      have hlen' : ((st.next_set_bit m).2.1.pending
          (st.next_set_bit m).2.2).length < n := by
        rw [hpend']
        rw [hp] at hlen
        simp at hlen
        omega
      obtain ⟨ih1, ih2, ih3⟩ :=
        ih (st.next_set_bit m).2.1 (st.next_set_bit m).2.2 hinv' hlen'
      simp only [Bitmap.AtomicCursor.cursorSteps]
      rw [if_neg hrne]
      dsimp only
      refine ⟨?_, ?_, ?_⟩
      · simp only [List.map_cons]
        rw [hr1, ih1, hpend']
      · intro pr hpr
        rcases List.mem_cons.mp hpr with heq | hmem
        · subst heq
          dsimp only
          refine ⟨?_, fun p hpp => hfr p hpp⟩
          rw [hr1, show s + (v - s) = v by omega]
          exact hbv
        · obtain ⟨hb0, hfr'⟩ := ih2 pr hmem
          exact ⟨hb0, fun p hpp => (hfr' p hpp).trans (hfr p hpp)⟩
      · intro p hpp
        exact (ih3 p hpp).trans (hfr p hpp)

end Auto

namespace Auto

/-- C4: a single AtomicCursor constructed over `[s, s + L)` of a bitmap,
driven sequentially (no concurrent mutation): the sequence of
`next_set_bit` results up to the first `not_found` return is exactly
`p - s` for every position `p` in `[s, s + L)` whose bit was set at the
cursor's start — i.e. the increasing duplicate-free list
`(List.range L).filter (bit (s + ·) == 1)` — each such bit is already
cleared in the bitmap at the moment its value is returned, and bits
outside `[s, s + L)` are unchanged in every intermediate bitmap and in
the final one. -/
theorem atomic_cursor_enumerates_set_bits (m : Bitmap) (s L : Nat)
    (hwf : m.WF) (hr : s + L ≤ m.size_in_bits) (hL : L < not_found) :
    (((m.mkAtomicCursor s L).1.cursorSteps (m.mkAtomicCursor s L).2
        (L + 1)).1.map Prod.fst
      = (List.range L).filter (fun j => m.bit (s + j) == 1)) ∧
    (∀ pr, pr ∈ ((m.mkAtomicCursor s L).1.cursorSteps (m.mkAtomicCursor s L).2
        (L + 1)).1 →
      pr.2.bit (s + pr.1) = 0 ∧
      (∀ p, p < s ∨ s + L ≤ p → pr.2.bit p = m.bit p)) ∧
    (∀ p, p < s ∨ s + L ≤ p →
      ((m.mkAtomicCursor s L).1.cursorSteps (m.mkAtomicCursor s L).2
        (L + 1)).2.bit p = m.bit p) := by
  obtain ⟨hinv0, hpend0, hframe0, _⟩ := mkAtomicCursor_spec m s L hwf hr
  have hmin : min (64 - s % 64) L ≤ L := by omega
  have hfr0 : ∀ p, p < s ∨ s + L ≤ p →
      (m.mkAtomicCursor s L).2.bit p = m.bit p := by
    intro p hpp
    exact hframe0 p (by omega)
  obtain ⟨h1, h2, h3⟩ := cursorSteps_spec s L hL (L + 1)
    (m.mkAtomicCursor s L).1 (m.mkAtomicCursor s L).2 hinv0
    (by rw [hpend0]; have := length_setList_le m s L; omega)
  refine ⟨?_, ?_, ?_⟩
  · rw [h1, hpend0]
    unfold Bitmap.setList
    rw [List.map_map]
    exact (List.map_congr_left (fun x hx => by simp)).trans (List.map_id _)
  · intro pr hpr
    obtain ⟨hb0, hfr'⟩ := h2 pr hpr
    exact ⟨hb0, fun p hpp => (hfr' p hpp).trans (hfr0 p hpp)⟩
  · intro p hpp
    exact (h3 p hpp).trans (hfr0 p hpp)

/-- C4 witness: a 128-bit bitmap with bits 3, 63, 64 and 65 set,
enumerated by a cursor over `[2, 102)`. -/
theorem atomic_cursor_enumerates_set_bits_witness :
    Bitmap.WF ⟨[8 + 2 ^ 63, 3]⟩ ∧
    2 + 100 ≤ Bitmap.size_in_bits ⟨[8 + 2 ^ 63, 3]⟩ ∧
    100 < not_found ∧
    ((((Bitmap.mkAtomicCursor ⟨[8 + 2 ^ 63, 3]⟩ 2 100).1.cursorSteps
        (Bitmap.mkAtomicCursor ⟨[8 + 2 ^ 63, 3]⟩ 2 100).2 (100 + 1)).1.map
        Prod.fst
      = (List.range 100).filter
          (fun j => Bitmap.bit ⟨[8 + 2 ^ 63, 3]⟩ (2 + j) == 1)) ∧
    (∀ pr, pr ∈ (((Bitmap.mkAtomicCursor ⟨[8 + 2 ^ 63, 3]⟩ 2 100).1.cursorSteps
        (Bitmap.mkAtomicCursor ⟨[8 + 2 ^ 63, 3]⟩ 2 100).2 (100 + 1)).1) →
      pr.2.bit (2 + pr.1) = 0 ∧
      (∀ p, p < 2 ∨ 2 + 100 ≤ p →
        pr.2.bit p = Bitmap.bit ⟨[8 + 2 ^ 63, 3]⟩ p)) ∧
    (∀ p, p < 2 ∨ 2 + 100 ≤ p →
      (((Bitmap.mkAtomicCursor ⟨[8 + 2 ^ 63, 3]⟩ 2 100).1.cursorSteps
        (Bitmap.mkAtomicCursor ⟨[8 + 2 ^ 63, 3]⟩ 2 100).2 (100 + 1)).2.bit p
        = Bitmap.bit ⟨[8 + 2 ^ 63, 3]⟩ p))) :=
  ⟨by decide, by decide, by decide,
    atomic_cursor_enumerates_set_bits ⟨[8 + 2 ^ 63, 3]⟩ 2 100
      (by decide) (by decide) (by decide)⟩

end Auto
